import Mathlib

/-!
Verification of the BrainStat / SurfStat core against its specification.

The development shallowly embeds the two source modules the claims are about:

* `src/brainstat/mesh/utils.py` — mesh edge extraction (`mesh_edges`,
  `_mask_edges`, `_make_contiguous`), over exact integer lists;
* `src/surfstat/python/SurfStatLinMod.py` — the linear-model fitter
  (`py_SurfStatLinMod`), over exact rational matrices.

Numpy primitives are modelled exactly: `np.unique` as a sorted deduplicated
list, `np.linalg.pinv` as a parameter constrained by the four Penrose
equations (which determine the Moore-Penrose pseudo-inverse uniquely),
`np.linalg.matrix_rank` through the projection-trace identity
rank X = trace (X · pinv X), valid in exact arithmetic.
-/

attribute [local semireducible] Rat.add Rat.sub Rat.mul Rat.inv

namespace BrainStat

/-! ## Sorted deduplicated lists

`np.unique` returns the distinct values (rows) of its input in sorted order.
We model it with a structurally recursive ordered insert, so that the model
is executable by kernel reduction.  The relation is passed as a boolean
total preorder; the lemmas below assume totality, antisymmetry and
transitivity, which hold for the two instances used (integers, and integer
pairs in lexicographic order). -/

section SortedDedup

variable {α : Type} [DecidableEq α] (le : α → α → Bool)

/-- Insert `a` into a sorted duplicate-free list, keeping it sorted and
duplicate-free. -/
def insSorted (a : α) : List α → List α
  | [] => [a]
  | b :: l => if a = b then b :: l
              else if le a b then a :: b :: l
              else b :: insSorted a l

/-- The distinct values of `l`, sorted: the model of `np.unique`. -/
def sortedDedup (l : List α) : List α :=
  l.foldr (insSorted le) []

/-- Strictly-below relation of the boolean order. -/
def sBelow (a b : α) : Prop := le a b = true ∧ a ≠ b

variable {le}

theorem mem_insSorted {x a : α} {l : List α} :
    x ∈ insSorted le a l ↔ x = a ∨ x ∈ l := by
  induction l with
  | nil => simp [insSorted]
  | cons b l ih =>
    simp only [insSorted]
    by_cases hab : a = b
    · subst hab
      rw [if_pos rfl]
      simp only [List.mem_cons]
      tauto
    · rw [if_neg hab]
      by_cases hle : le a b = true
      · rw [if_pos hle]
        simp only [List.mem_cons]
      · rw [if_neg hle]
        simp only [List.mem_cons, ih]
        tauto

theorem mem_sortedDedup {x : α} {l : List α} :
    x ∈ sortedDedup le l ↔ x ∈ l := by
  induction l with
  | nil => simp [sortedDedup]
  | cons b l ih =>
    simp only [sortedDedup, List.foldr_cons] at *
    rw [mem_insSorted, ih, List.mem_cons]

variable (htot : ∀ a b : α, le a b = true ∨ le b a = true)
variable (hanti : ∀ a b : α, le a b = true → le b a = true → a = b)
variable (htrans : ∀ a b c : α, le a b = true → le b c = true → le a c = true)

include htot hanti htrans in
theorem pairwise_insSorted {a : α} {l : List α}
    (h : l.Pairwise (sBelow le)) :
    (insSorted le a l).Pairwise (sBelow le) := by
  induction l with
  | nil => simp [insSorted]
  | cons b l ih =>
    rcases List.pairwise_cons.mp h with ⟨hb, hl⟩
    by_cases hab : a = b
    · subst hab; simpa [insSorted] using h
    · simp only [insSorted, if_neg hab]
      by_cases hle : le a b
      · simp only [if_pos hle]
        refine List.pairwise_cons.mpr ⟨?_, h⟩
        intro x hx
        rcases List.mem_cons.mp hx with rfl | hx
        · exact ⟨hle, hab⟩
        · rcases hb x hx with ⟨hbx, hbxne⟩
          refine ⟨htrans _ _ _ hle hbx, ?_⟩
          rintro rfl
          exact hbxne (hanti _ _ hbx hle)
      · simp only [hle, if_neg, Bool.false_eq_true]
        refine List.pairwise_cons.mpr ⟨?_, ih hl⟩
        intro x hx
        rcases mem_insSorted.mp hx with rfl | hx
        · rcases htot x b with hxb | hbx
          · simp [hxb] at hle
          · exact ⟨hbx, fun hbe => hab hbe.symm⟩
        · exact hb x hx

include htot hanti htrans in
theorem pairwise_sortedDedup (l : List α) :
    (sortedDedup le l).Pairwise (sBelow le) := by
  induction l with
  | nil => simp [sortedDedup]
  | cons b l ih =>
    simpa [sortedDedup] using
      pairwise_insSorted htot hanti htrans (by simpa [sortedDedup] using ih)

omit [DecidableEq α] in
theorem nodup_of_pairwise_sBelow {l : List α} (h : l.Pairwise (sBelow le)) :
    l.Nodup :=
  h.imp fun hab => hab.2

omit [DecidableEq α] in
include hanti in
theorem eq_of_pairwise_of_mem_iff :
    ∀ {l l' : List α}, l.Pairwise (sBelow le) → l'.Pairwise (sBelow le) →
      (∀ x, x ∈ l ↔ x ∈ l') → l = l'
  | [], [], _, _, _ => rfl
  | [], b :: l', _, _, hmem => by
      simpa using (hmem b).mpr (List.mem_cons_self _ _)
  | a :: l, [], _, _, hmem => by
      simpa using (hmem a).mp (List.mem_cons_self _ _)
  | a :: l, b :: l', hp, hp', hmem => by
      rcases List.pairwise_cons.mp hp with ⟨ha, hpl⟩
      rcases List.pairwise_cons.mp hp' with ⟨hb, hpl'⟩
      have hab : a = b := by
        rcases List.mem_cons.mp ((hmem a).mp (List.mem_cons_self _ _)) with h | h
        · exact h
        rcases List.mem_cons.mp ((hmem b).mpr (List.mem_cons_self _ _)) with h' | h'
        · exact h'.symm
        rcases hb a h with ⟨h1, h2⟩
        rcases ha b h' with ⟨h3, h4⟩
        exact absurd (hanti _ _ h3 h1) h4
      subst hab
      have htail : ∀ x, x ∈ l ↔ x ∈ l' := by
        intro x
        constructor
        · intro hx
          rcases List.mem_cons.mp ((hmem x).mp (List.mem_cons_of_mem _ hx)) with rfl | h
          · exact absurd rfl (ha x hx).2.symm
          · exact h
        · intro hx
          rcases List.mem_cons.mp ((hmem x).mpr (List.mem_cons_of_mem _ hx)) with rfl | h
          · exact absurd rfl (hb x hx).2.symm
          · exact h
      rw [eq_of_pairwise_of_mem_iff hpl hpl' htail]

include htot hanti htrans in
theorem sortedDedup_eq_of_mem_iff {l l' : List α}
    (hmem : ∀ x, x ∈ l ↔ x ∈ l') :
    sortedDedup le l = sortedDedup le l' :=
  eq_of_pairwise_of_mem_iff hanti
    (pairwise_sortedDedup htot hanti htrans l)
    (pairwise_sortedDedup htot hanti htrans l')
    (by intro x; rw [mem_sortedDedup, mem_sortedDedup]; exact hmem x)

end SortedDedup

/-! ## Ordering on integer pairs

`np.unique(a, axis=0)` sorts the distinct rows lexicographically. -/

/-- Lexicographic comparison of integer pairs. -/
def pairLeB (a b : ℤ × ℤ) : Bool :=
  a.1 < b.1 || (a.1 == b.1 && a.2 ≤ b.2)

theorem pairLeB_total (a b : ℤ × ℤ) : pairLeB a b = true ∨ pairLeB b a = true := by
  simp only [pairLeB, Bool.or_eq_true, decide_eq_true_eq, Bool.and_eq_true, beq_iff_eq]
  omega

theorem pairLeB_anti (a b : ℤ × ℤ) (h1 : pairLeB a b = true)
    (h2 : pairLeB b a = true) : a = b := by
  simp only [pairLeB, Bool.or_eq_true, decide_eq_true_eq, Bool.and_eq_true,
    beq_iff_eq] at h1 h2
  rcases a with ⟨a1, a2⟩
  rcases b with ⟨b1, b2⟩
  simp only [Prod.mk.injEq]
  omega

theorem pairLeB_trans (a b c : ℤ × ℤ) (h1 : pairLeB a b = true)
    (h2 : pairLeB b c = true) : pairLeB a c = true := by
  simp only [pairLeB, Bool.or_eq_true, decide_eq_true_eq, Bool.and_eq_true,
    beq_iff_eq] at *
  omega

/-- Model of `np.unique(rows, axis=0)`: the distinct rows, sorted
lexicographically. -/
def npUniquePairs (l : List (ℤ × ℤ)) : List (ℤ × ℤ) :=
  sortedDedup pairLeB l

/-- Model of `np.unique(values)` on a flat integer array: the distinct
values, sorted. -/
def npUniqueInt (l : List ℤ) : List ℤ :=
  sortedDedup (fun a b : ℤ => a ≤ b) l

/-! ## Triangle path of `mesh_edges` (src/brainstat/mesh/utils.py lines 47-55)

```
tri = np.sort(surf["tri"], axis=1)
edg = np.unique(
    np.concatenate(
        (np.concatenate((tri[:, [0, 1]], tri[:, [0, 2]])), tri[:, [1, 2]])
    ), axis=0)
edg = edg - 1
```
-/

/-- `np.sort` of one length-3 row (ascending). -/
def sort3 (t : ℤ × ℤ × ℤ) : ℤ × ℤ × ℤ :=
  let a := t.1
  let b := t.2.1
  let c := t.2.2
  let p := min a b
  let q := max a b
  let r := max q c
  let q1 := min q c
  (min p q1, max p q1, r)

/-- The concatenated column pairs `[0,1]`, `[0,2]`, `[1,2]` of the row-sorted
triangle array, in the order `np.concatenate` builds them. -/
def triEdgesRaw (tris : List (ℤ × ℤ × ℤ)) : List (ℤ × ℤ) :=
  (tris.map fun t => ((sort3 t).1, (sort3 t).2.1)) ++
    (tris.map fun t => ((sort3 t).1, (sort3 t).2.2)) ++
    (tris.map fun t => ((sort3 t).2.1, (sort3 t).2.2))

/-- Triangle branch of `mesh_edges`: unique sorted pairs, then `edg - 1`. -/
def meshEdgesTri (tris : List (ℤ × ℤ × ℤ)) : List (ℤ × ℤ) :=
  (npUniquePairs (triEdgesRaw tris)).map fun e => (e.1 - 1, e.2 - 1)

theorem mem_triEdgesRaw {e : ℤ × ℤ} {l : List (ℤ × ℤ × ℤ)} :
    e ∈ triEdgesRaw l ↔ ∃ t ∈ l,
      e = ((sort3 t).1, (sort3 t).2.1) ∨ e = ((sort3 t).1, (sort3 t).2.2) ∨
        e = ((sort3 t).2.1, (sort3 t).2.2) := by
  simp only [triEdgesRaw, List.mem_append, List.mem_map]
  constructor
  · rintro ((⟨t, ht, rfl⟩ | ⟨t, ht, rfl⟩) | ⟨t, ht, rfl⟩)
    · exact ⟨t, ht, Or.inl rfl⟩
    · exact ⟨t, ht, Or.inr (Or.inl rfl)⟩
    · exact ⟨t, ht, Or.inr (Or.inr rfl)⟩
  · rintro ⟨t, ht, (rfl | rfl | rfl)⟩
    · exact Or.inl (Or.inl ⟨t, ht, rfl⟩)
    · exact Or.inl (Or.inr ⟨t, ht, rfl⟩)
    · exact Or.inr ⟨t, ht, rfl⟩

theorem npUniquePairs_triEdges_of_mem_iff {l l' : List (ℤ × ℤ × ℤ)}
    (h : ∀ t, t ∈ l ↔ t ∈ l') :
    npUniquePairs (triEdgesRaw l) = npUniquePairs (triEdgesRaw l') := by
  apply sortedDedup_eq_of_mem_iff pairLeB_total pairLeB_anti pairLeB_trans
  intro e
  rw [mem_triEdgesRaw, mem_triEdgesRaw]
  constructor
  · rintro ⟨t, ht, he⟩; exact ⟨t, (h t).mp ht, he⟩
  · rintro ⟨t, ht, he⟩; exact ⟨t, (h t).mpr ht, he⟩

theorem shiftPair_injective :
    Function.Injective (fun e : ℤ × ℤ => (e.1 - 1, e.2 - 1)) := by
  intro a b h
  rcases a with ⟨a1, a2⟩
  rcases b with ⟨b1, b2⟩
  simp only [Prod.mk.injEq] at h ⊢
  omega

theorem mem_meshEdgesTri {e : ℤ × ℤ} {tris : List (ℤ × ℤ × ℤ)} :
    e ∈ meshEdgesTri tris ↔ (e.1 + 1, e.2 + 1) ∈ triEdgesRaw tris := by
  unfold meshEdgesTri npUniquePairs
  simp only [List.mem_map]
  constructor
  · rintro ⟨c, hc, rfl⟩
    have : (c.1 - 1 + 1, c.2 - 1 + 1) = c := by
      rcases c with ⟨c1, c2⟩
      simp only [Prod.mk.injEq]
      omega
    rw [this]
    exact mem_sortedDedup.mp hc
  · intro h
    refine ⟨(e.1 + 1, e.2 + 1), mem_sortedDedup.mpr h, ?_⟩
    rcases e with ⟨e1, e2⟩
    simp only [Prod.mk.injEq]
    omega

/-- C6: on the triangle path, `mesh_edges` returns each canonicalized pair of
the triangle list exactly once (no duplicate rows), in an order independent
of the insertion order of the triangles, and appending a duplicate of a
triangle already present does not change the output edge list. -/
theorem meshEdgesTri_unique_deterministic_idempotent (tris : List (ℤ × ℤ × ℤ)) :
    (meshEdgesTri tris).Nodup ∧
    (∀ tris' : List (ℤ × ℤ × ℤ), tris.Perm tris' →
      meshEdgesTri tris' = meshEdgesTri tris) ∧
    (∀ t ∈ tris, meshEdgesTri (tris ++ [t]) = meshEdgesTri tris) ∧
    (∀ e : ℤ × ℤ, e ∈ meshEdgesTri tris ↔
      (e.1 + 1, e.2 + 1) ∈ triEdgesRaw tris) := by
  refine ⟨?_, ?_, ?_, fun e => mem_meshEdgesTri⟩
  · exact List.Nodup.map shiftPair_injective
      (nodup_of_pairwise_sBelow
        (pairwise_sortedDedup pairLeB_total pairLeB_anti pairLeB_trans _))
  · intro tris' hperm
    unfold meshEdgesTri
    rw [npUniquePairs_triEdges_of_mem_iff fun t => hperm.mem_iff.symm]
  · intro t ht
    unfold meshEdgesTri
    rw [npUniquePairs_triEdges_of_mem_iff (l := tris ++ [t])]
    intro x
    simp only [List.mem_append, List.mem_singleton]
    constructor
    · rintro (hx | rfl)
      · exact hx
      · exact ht
    · exact Or.inl

/-- Concrete instance for the idempotence part of the C6 theorem: appending a
duplicate triangle leaves the edge list unchanged. -/
theorem meshEdgesTri_unique_deterministic_idempotent_witness :
    meshEdgesTri ([((1:ℤ), (2:ℤ), (3:ℤ)), (2, 3, 4)] ++ [(1, 2, 3)]) =
      meshEdgesTri [((1:ℤ), (2:ℤ), (3:ℤ)), (2, 3, 4)] :=
  (meshEdgesTri_unique_deterministic_idempotent
    [((1:ℤ), (2:ℤ), (3:ℤ)), (2, 3, 4)]).2.2.1 (1, 2, 3) (by decide)

theorem sort3_fst_eq_min (t : ℤ × ℤ × ℤ) :
    (sort3 t).1 = min t.1 (min t.2.1 t.2.2) := by
  rcases t with ⟨a, b, c⟩
  simp only [sort3]
  omega

/-- C10: the triangle path subtracts one from every entry of the
canonicalized, deduplicated pairs before returning, so on a triangle list
with 0-based indices, a triangle referencing vertex 0 puts the entry -1
into the returned edge list. -/
theorem meshEdgesTri_one_based_offset (tris : List (ℤ × ℤ × ℤ))
    (h0 : ∀ t ∈ tris, 0 ≤ t.1 ∧ 0 ≤ t.2.1 ∧ 0 ≤ t.2.2)
    (t : ℤ × ℤ × ℤ) (ht : t ∈ tris)
    (hz : t.1 = 0 ∨ t.2.1 = 0 ∨ t.2.2 = 0) :
    meshEdgesTri tris =
      (npUniquePairs (triEdgesRaw tris)).map (fun c => (c.1 - 1, c.2 - 1)) ∧
    ((sort3 t).1 - 1, (sort3 t).2.1 - 1) ∈ meshEdgesTri tris ∧
    (sort3 t).1 - 1 = -1 := by
  refine ⟨rfl, ?_, ?_⟩
  · have hmem : ((sort3 t).1, (sort3 t).2.1) ∈ triEdgesRaw tris :=
      mem_triEdgesRaw.mpr ⟨t, ht, Or.inl rfl⟩
    exact mem_meshEdgesTri.mpr (by simpa using hmem)
  · rcases h0 t ht with ⟨h1, h2, h3⟩
    rw [sort3_fst_eq_min]
    omega

/-- Concrete instance for the C10 theorem: the 0-based triangle (0, 1, 2)
produces the entry -1 in the returned edge list. -/
theorem meshEdgesTri_one_based_offset_witness :
    ((sort3 ((0:ℤ), (1:ℤ), (2:ℤ))).1 - 1, (sort3 ((0:ℤ), (1:ℤ), (2:ℤ))).2.1 - 1) ∈
      meshEdgesTri [((0:ℤ), (1:ℤ), (2:ℤ))] ∧
    (sort3 ((0:ℤ), (1:ℤ), (2:ℤ))).1 - 1 = -1 :=
  (meshEdgesTri_one_based_offset [((0:ℤ), (1:ℤ), (2:ℤ))] (by decide)
    ((0:ℤ), (1:ℤ), (2:ℤ)) (by decide) (by decide)).2

/-! ## `_mask_edges` and `_make_contiguous`
    (src/brainstat/mesh/utils.py lines 194-204 and 264-280)

```
missing_edges = np.where(~mask)
remove_edges[i, j] = (edges[i, j] == missing_edges).any()
idx = ~np.any(remove_edges, axis=1)
edges = edges[idx, :]
edges = _make_contiguous(edges)
```
and
```
val = np.unique(Y)
for i in range(val.size):
    Y[Y == val[i]] = i
```
-/

/-- Model of the test `(edges[i, j] == missing_edges).any()` against
`missing_edges = np.where(~mask)`: does `x` equal an index at which the
mask is false? -/
def isMissingIdx (mask : List Bool) (x : ℤ) : Bool :=
  (List.range mask.length).any fun i => !(mask.getD i true) && (x == (i : ℤ))

/-- An edge survives when neither endpoint is a missing index
(`idx = ~np.any(remove_edges, axis=1)`). -/
def keepEdge (mask : List Bool) (e : ℤ × ℤ) : Bool :=
  !(isMissingIdx mask e.1) && !(isMissingIdx mask e.2)

/-- The flattened values of the e-by-2 edge array, in C order (the order
`np.unique` reads them in before sorting). -/
def edgeValues (edges : List (ℤ × ℤ)) : List ℤ :=
  edges.foldr (fun e acc => e.1 :: e.2 :: acc) []

/-- One step `Y[Y == val[i]] = i` of `_make_contiguous`. -/
def replaceVal (edges : List (ℤ × ℤ)) (old new : ℤ) : List (ℤ × ℤ) :=
  edges.map fun e =>
    (if e.1 = old then new else e.1, if e.2 = old then new else e.2)

/-- `_make_contiguous`: `val = np.unique(Y)`, then the in-order replacement
loop `Y[Y == val[i]] = i`. -/
def makeContiguous (edges : List (ℤ × ℤ)) : List (ℤ × ℤ) :=
  (npUniqueInt (edgeValues edges)).enum.foldl
    (fun Y iv => replaceVal Y iv.2 (iv.1 : ℤ)) edges

/-- `_mask_edges` (the edge component of its result; the boolean retention
vector `idx` it also returns is consumed by no claim). -/
def maskEdges (edges : List (ℤ × ℤ)) (mask : List Bool) : List (ℤ × ℤ) :=
  makeContiguous (edges.filter (keepEdge mask))

theorem intLeB_total (a b : ℤ) :
    (decide (a ≤ b)) = true ∨ (decide (b ≤ a)) = true := by
  simp only [decide_eq_true_eq]
  omega

theorem intLeB_anti (a b : ℤ) (h1 : (decide (a ≤ b)) = true)
    (h2 : (decide (b ≤ a)) = true) : a = b := by
  simp only [decide_eq_true_eq] at h1 h2
  omega

theorem intLeB_trans (a b c : ℤ) (h1 : (decide (a ≤ b)) = true)
    (h2 : (decide (b ≤ c)) = true) : (decide (a ≤ c)) = true := by
  simp only [decide_eq_true_eq] at *
  omega

theorem npUniqueInt_pairwise_lt (l : List ℤ) :
    (npUniqueInt l).Pairwise (· < ·) := by
  have h := @pairwise_sortedDedup ℤ _ (fun a b : ℤ => decide (a ≤ b))
    intLeB_total intLeB_anti intLeB_trans l
  refine h.imp ?_
  rintro a b ⟨h1, h2⟩
  simp only [decide_eq_true_eq] at h1
  omega

theorem mem_npUniqueInt {x : ℤ} {l : List ℤ} : x ∈ npUniqueInt l ↔ x ∈ l :=
  mem_sortedDedup

theorem mem_edgeValues {x : ℤ} {edges : List (ℤ × ℤ)} :
    x ∈ edgeValues edges ↔ ∃ e ∈ edges, x = e.1 ∨ x = e.2 := by
  induction edges with
  | nil => simp [edgeValues]
  | cons e E ih =>
    simp only [edgeValues, List.foldr_cons, List.mem_cons] at *
    rw [ih]
    constructor
    · rintro (rfl | rfl | ⟨f, hf, hx⟩)
      · exact ⟨e, Or.inl rfl, Or.inl rfl⟩
      · exact ⟨e, Or.inl rfl, Or.inr rfl⟩
      · exact ⟨f, Or.inr hf, hx⟩
    · rintro ⟨f, (rfl | hf), hx⟩
      · rcases hx with rfl | rfl
        · exact Or.inl rfl
        · exact Or.inr (Or.inl rfl)
      · exact Or.inr (Or.inr ⟨f, hf, hx⟩)

/-- Sequential effect of the replacement steps on a single entry value. -/
def applyReps (L : List (ℕ × ℤ)) (x : ℤ) : ℤ :=
  L.foldl (fun y iv => if y = iv.2 then (iv.1 : ℤ) else y) x

theorem foldl_replaceVal_eq_map (L : List (ℕ × ℤ)) (E : List (ℤ × ℤ)) :
    L.foldl (fun Y iv => replaceVal Y iv.2 (iv.1 : ℤ)) E =
      E.map fun e => (applyReps L e.1, applyReps L e.2) := by
  induction L generalizing E with
  | nil => simp [applyReps]
  | cons iv L ih =>
    simp only [List.foldl_cons]
    rw [ih]
    unfold replaceVal
    rw [List.map_map]
    rfl

theorem applyReps_of_ne (L : List (ℕ × ℤ)) (x : ℤ)
    (h : ∀ iv ∈ L, x ≠ iv.2) : applyReps L x = x := by
  induction L with
  | nil => rfl
  | cons iv L ih =>
    unfold applyReps at *
    simp only [List.foldl_cons]
    rw [if_neg (h iv (List.mem_cons_self _ _))]
    exact ih fun jv hjv => h jv (List.mem_cons_of_mem _ hjv)

theorem snd_mem_of_mem_enumFrom {l : List ℤ} {n : ℕ} {iv : ℕ × ℤ}
    (h : iv ∈ l.enumFrom n) : iv.2 ∈ l := by
  induction l generalizing n with
  | nil => cases h
  | cons v rest ih =>
    rw [List.enumFrom_cons] at h
    rcases List.mem_cons.mp h with rfl | h
    · exact List.mem_cons_self _ _
    · exact List.mem_cons_of_mem _ (ih h)

/-- On a strictly sorted list of values all at least `n`, the replacement
loop with counter starting at `n` sends the member `x` to `n` plus its
index: no earlier-assigned counter value is ever recaptured by a later
replacement because every remaining value exceeds every assigned counter. -/
theorem applyReps_enumFrom (vals : List ℤ) (x : ℤ)
    (hsorted : vals.Pairwise (· < ·)) :
    ∀ n : ℕ, (∀ v ∈ vals, (n : ℤ) ≤ v) → x ∈ vals →
      applyReps (vals.enumFrom n) x = (n : ℤ) + vals.indexOf x := by
  induction vals with
  | nil => intro n _ hx; cases hx
  | cons v rest ih =>
    intro n hge hx
    rcases List.pairwise_cons.mp hsorted with ⟨hv, hrest⟩
    rw [List.enumFrom_cons]
    unfold applyReps
    simp only [List.foldl_cons]
    by_cases hxv : x = v
    · subst hxv
      rw [if_pos rfl]
      have hz : applyReps (rest.enumFrom (n + 1)) (n : ℤ) = (n : ℤ) := by
        apply applyReps_of_ne
        intro iv hiv
        have h2 : iv.2 ∈ rest := snd_mem_of_mem_enumFrom hiv
        have h3 := hv iv.2 h2
        have h4 := hge x (List.mem_cons_self _ _)
        omega
      unfold applyReps at hz
      rw [hz, List.indexOf_cons_self]
      simp
    · rw [if_neg hxv]
      have hx' : x ∈ rest := by
        rcases List.mem_cons.mp hx with rfl | h
        · exact absurd rfl hxv
        · exact h
      have hge' : ∀ w ∈ rest, ((n + 1 : ℕ) : ℤ) ≤ w := by
        intro w hw
        have := hv w hw
        have := hge v (List.mem_cons_self _ _)
        push_cast
        omega
      have := ih hrest (n + 1) hge' hx'
      unfold applyReps at this
      rw [this, List.indexOf_cons_ne _ fun h => hxv h.symm]
      push_cast
      ring

theorem makeContiguous_eq_rankMap (E : List (ℤ × ℤ))
    (hnn : ∀ v ∈ edgeValues E, 0 ≤ v) :
    makeContiguous E = E.map fun e =>
      (((npUniqueInt (edgeValues E)).indexOf e.1 : ℤ),
        ((npUniqueInt (edgeValues E)).indexOf e.2 : ℤ)) := by
  unfold makeContiguous
  rw [List.enum, foldl_replaceVal_eq_map]
  apply List.map_congr_left
  intro e he
  have h1 : e.1 ∈ npUniqueInt (edgeValues E) :=
    mem_npUniqueInt.mpr (mem_edgeValues.mpr ⟨e, he, Or.inl rfl⟩)
  have h2 : e.2 ∈ npUniqueInt (edgeValues E) :=
    mem_npUniqueInt.mpr (mem_edgeValues.mpr ⟨e, he, Or.inr rfl⟩)
  have hge : ∀ v ∈ npUniqueInt (edgeValues E), ((0 : ℕ) : ℤ) ≤ v := by
    intro v hv
    exact_mod_cast hnn v (mem_npUniqueInt.mp hv)
  have hs := npUniqueInt_pairwise_lt (edgeValues E)
  rw [applyReps_enumFrom _ _ hs 0 hge h1, applyReps_enumFrom _ _ hs 0 hge h2]
  simp

theorem isMissingIdx_true_iff {mask : List Bool} {x : ℤ} (h0 : 0 ≤ x)
    (hlt : x < mask.length) :
    isMissingIdx mask x = true ↔ mask.getD x.toNat false = false := by
  unfold isMissingIdx
  rw [List.any_eq_true]
  have hxlt : x.toNat < mask.length := by omega
  constructor
  · rintro ⟨i, hi, hp⟩
    rw [List.mem_range] at hi
    rw [Bool.and_eq_true_iff] at hp
    rcases hp with ⟨hnot, heq⟩
    have hxi : x = (i : ℤ) := by exact_mod_cast (beq_iff_eq).mp heq
    have hix : x.toNat = i := by omega
    rw [hix, List.getD_eq_getElem _ _ hi]
    rw [List.getD_eq_getElem _ _ hi, Bool.not_eq_true'] at hnot
    exact hnot
  · intro hm
    refine ⟨x.toNat, List.mem_range.mpr hxlt, ?_⟩
    rw [Bool.and_eq_true_iff]
    constructor
    · rw [List.getD_eq_getElem _ _ hxlt]
      rw [List.getD_eq_getElem _ _ hxlt] at hm
      rw [Bool.not_eq_true']
      exact hm
    · rw [beq_iff_eq]
      omega

theorem keepEdge_eq {mask : List Bool} {e : ℤ × ℤ}
    (h : 0 ≤ e.1 ∧ e.1 < mask.length ∧ 0 ≤ e.2 ∧ e.2 < mask.length) :
    keepEdge mask e =
      (mask.getD e.1.toNat false && mask.getD e.2.toNat false) := by
  rcases h with ⟨h1, h2, h3, h4⟩
  unfold keepEdge
  cases hm1 : mask.getD e.1.toNat false with
  | false =>
    have := (isMissingIdx_true_iff h1 h2).mpr hm1
    rw [this]
    simp
  | true =>
    have hmiss1 : isMissingIdx mask e.1 = false := by
      rcases hb : isMissingIdx mask e.1 with _ | _
      · rfl
      · rw [(isMissingIdx_true_iff h1 h2).mp hb] at hm1
        cases hm1
    rw [hmiss1]
    cases hm2 : mask.getD e.2.toNat false with
    | false =>
      have := (isMissingIdx_true_iff h3 h4).mpr hm2
      rw [this]
      simp
    | true =>
      have hmiss2 : isMissingIdx mask e.2 = false := by
        rcases hb : isMissingIdx mask e.2 with _ | _
        · rfl
        · rw [(isMissingIdx_true_iff h3 h4).mp hb] at hm2
          cases hm2
      rw [hmiss2]
      simp

/-- Position of `indexOf` in a strictly sorted list is monotone in the
value, and conversely. -/
theorem indexOf_lt_indexOf_of_pairwise_lt :
    ∀ {l : List ℤ}, l.Pairwise (· < ·) → ∀ x ∈ l, ∀ y ∈ l,
      (x < y ↔ l.indexOf x < l.indexOf y)
  | [], _, x, hx, _, _ => by cases hx
  | v :: rest, hp, x, hx, y, hy => by
    rcases List.pairwise_cons.mp hp with ⟨hv, hrest⟩
    by_cases hxv : x = v
    · subst hxv
      by_cases hyv : y = x
      · subst hyv
        simp
      · have hy' : y ∈ rest := by
          rcases List.mem_cons.mp hy with rfl | h
          · exact absurd rfl hyv
          · exact h
        rw [List.indexOf_cons_self, List.indexOf_cons_ne _ fun h => hyv h.symm]
        have := hv y hy'
        constructor
        · intro _; exact Nat.succ_pos _
        · intro _; exact this
    · have hx' : x ∈ rest := by
        rcases List.mem_cons.mp hx with rfl | h
        · exact absurd rfl hxv
        · exact h
      by_cases hyv : y = v
      · subst hyv
        rw [List.indexOf_cons_self, List.indexOf_cons_ne _ fun h => hxv h.symm]
        have := hv x hx'
        constructor
        · intro h; omega
        · intro h; omega
      · have hy' : y ∈ rest := by
          rcases List.mem_cons.mp hy with rfl | h
          · exact absurd rfl hyv
          · exact h
        rw [List.indexOf_cons_ne _ fun h => hxv h.symm,
          List.indexOf_cons_ne _ fun h => hyv h.symm]
        rw [indexOf_lt_indexOf_of_pairwise_lt hrest x hx' y hy']
        omega

/-- The indices at which the mask holds true. -/
def maskTruePositions (mask : List Bool) : List ℕ :=
  (List.range mask.length).filter fun i => mask.getD i false

theorem length_maskTruePositions (mask : List Bool) :
    (maskTruePositions mask).length = mask.countP id := by
  induction mask with
  | nil => rfl
  | cons b rest ih =>
    unfold maskTruePositions at *
    simp only [List.getD_eq_getElem?_getD] at ih ⊢
    rw [List.length_cons, List.range_succ_eq_map, List.filter_cons,
      List.filter_map]
    have hcomp : ((fun i => (b :: rest)[i]?.getD false) ∘ Nat.succ) =
        fun i => rest[i]?.getD false := by
      funext i
      simp
    rw [hcomp]
    cases b <;> simp [ih, List.countP_cons, Nat.add_comm]

/-- The distinct vertex values referenced by the surviving edges, sorted:
the `val` array of `_make_contiguous` as reached through `_mask_edges`. -/
def survivingVals (edges : List (ℤ × ℤ)) (mask : List Bool) : List ℤ :=
  npUniqueInt (edgeValues (edges.filter (keepEdge mask)))

theorem survivingVals_length_le (edges : List (ℤ × ℤ)) (mask : List Bool)
    (hrange : ∀ e ∈ edges,
      0 ≤ e.1 ∧ e.1 < mask.length ∧ 0 ≤ e.2 ∧ e.2 < mask.length) :
    (survivingVals edges mask).length ≤ mask.countP id := by
  have hmem : ∀ v ∈ survivingVals edges mask,
      0 ≤ v ∧ v < mask.length ∧ mask.getD v.toNat false = true := by
    intro v hv
    rcases mem_edgeValues.mp (mem_npUniqueInt.mp hv) with ⟨e, he, hval⟩
    rcases List.mem_filter.mp he with ⟨heE, hkeep⟩
    have hr := hrange e heE
    rw [keepEdge_eq hr, Bool.and_eq_true_iff] at hkeep
    rcases hval with rfl | rfl
    · exact ⟨hr.1, hr.2.1, hkeep.1⟩
    · exact ⟨hr.2.2.1, hr.2.2.2, hkeep.2⟩
  have hnodup : (survivingVals edges mask).Nodup :=
    nodup_of_pairwise_sBelow
      (pairwise_sortedDedup intLeB_total intLeB_anti intLeB_trans _)
  have hnodup' : ((survivingVals edges mask).map Int.toNat).Nodup := by
    apply List.Nodup.map_on ?_ hnodup
    intro x hx y hy hxy
    have h1 := (hmem x hx).1
    have h2 := (hmem y hy).1
    omega
  have hsub : ((survivingVals edges mask).map Int.toNat) ⊆
      maskTruePositions mask := by
    intro n hn
    rcases List.mem_map.mp hn with ⟨v, hv, rfl⟩
    rcases hmem v hv with ⟨h0, hlt, htrue⟩
    unfold maskTruePositions
    rw [List.mem_filter, List.mem_range]
    exact ⟨by omega, htrue⟩
  calc (survivingVals edges mask).length
      = ((survivingVals edges mask).map Int.toNat).length :=
        (List.length_map _ _).symm
    _ ≤ (maskTruePositions mask).length :=
        (List.subperm_of_subset hnodup' hsub).length_le
    _ = mask.countP id := length_maskTruePositions mask

/-- C7: `_mask_edges` keeps exactly the edges whose two endpoints both have
a true mask entry, renumbers the surviving vertex values onto the
contiguous range 0, 1, ... in a way that preserves their relative order,
and every entry of the returned edge list is nonnegative and strictly
below the number of true entries of the mask. -/
theorem maskEdges_filter_renumber_bound (edges : List (ℤ × ℤ))
    (mask : List Bool)
    (hrange : ∀ e ∈ edges,
      0 ≤ e.1 ∧ e.1 < mask.length ∧ 0 ≤ e.2 ∧ e.2 < mask.length) :
    maskEdges edges mask =
      (edges.filter fun e =>
          mask.getD e.1.toNat false && mask.getD e.2.toNat false).map
        (fun e => (((survivingVals edges mask).indexOf e.1 : ℤ),
          ((survivingVals edges mask).indexOf e.2 : ℤ))) ∧
    (∀ x ∈ survivingVals edges mask, ∀ y ∈ survivingVals edges mask,
      (x < y ↔ (survivingVals edges mask).indexOf x <
        (survivingVals edges mask).indexOf y)) ∧
    (∀ e ∈ maskEdges edges mask,
      0 ≤ e.1 ∧ e.1 < (mask.countP id : ℤ) ∧
        0 ≤ e.2 ∧ e.2 < (mask.countP id : ℤ)) := by
  have hnn : ∀ v ∈ edgeValues (edges.filter (keepEdge mask)), 0 ≤ v := by
    intro v hv
    rcases mem_edgeValues.mp hv with ⟨e, he, hval⟩
    have hr := hrange e (List.mem_filter.mp he).1
    rcases hval with rfl | rfl
    · exact hr.1
    · exact hr.2.2.1
  have hrep : maskEdges edges mask =
      (edges.filter (keepEdge mask)).map
        (fun e => (((survivingVals edges mask).indexOf e.1 : ℤ),
          ((survivingVals edges mask).indexOf e.2 : ℤ))) := by
    unfold maskEdges survivingVals
    exact makeContiguous_eq_rankMap _ hnn
  have hfilter : edges.filter (keepEdge mask) =
      edges.filter fun e =>
        mask.getD e.1.toNat false && mask.getD e.2.toNat false :=
    List.filter_congr fun e he => keepEdge_eq (hrange e he)
  refine ⟨by rw [hrep, hfilter], ?_, ?_⟩
  · exact fun x hx y hy => indexOf_lt_indexOf_of_pairwise_lt
      (npUniqueInt_pairwise_lt _) x hx y hy
  · intro e he
    rw [hrep] at he
    rcases List.mem_map.mp he with ⟨f, hf, rfl⟩
    have h1 : f.1 ∈ survivingVals edges mask :=
      mem_npUniqueInt.mpr (mem_edgeValues.mpr ⟨f, hf, Or.inl rfl⟩)
    have h2 : f.2 ∈ survivingVals edges mask :=
      mem_npUniqueInt.mpr (mem_edgeValues.mpr ⟨f, hf, Or.inr rfl⟩)
    have hb1 : (survivingVals edges mask).indexOf f.1 <
        (survivingVals edges mask).length := List.indexOf_lt_length.mpr h1
    have hb2 : (survivingVals edges mask).indexOf f.2 <
        (survivingVals edges mask).length := List.indexOf_lt_length.mpr h2
    have hle := survivingVals_length_le edges mask hrange
    refine ⟨by positivity, ?_, by positivity, ?_⟩
    · show ((survivingVals edges mask).indexOf f.1 : ℤ) < (mask.countP id : ℤ)
      exact_mod_cast lt_of_lt_of_le hb1 hle
    · show ((survivingVals edges mask).indexOf f.2 : ℤ) < (mask.countP id : ℤ)
      exact_mod_cast lt_of_lt_of_le hb2 hle

/-- Concrete instance of the C7 theorem: for the mask [true, false, true]
only the edge avoiding vertex 1 survives, and its endpoints are renumbered
to 0 and 1. -/
theorem maskEdges_filter_renumber_bound_witness :
    maskEdges [((0:ℤ), (2:ℤ)), (1, 2), (0, 1)] [true, false, true] =
      [((0:ℤ), (1:ℤ))] :=
  ((maskEdges_filter_renumber_bound [((0:ℤ), (2:ℤ)), (1, 2), (0, 1)]
    [true, false, true] (by decide)).1).trans (by decide)

/-! ## Lattice path of `mesh_edges` (src/brainstat/mesh/utils.py lines 57-183)

The code builds the dense edge template of a fully occupied I × J × K grid
(1-based voxel ids in column-major order), filters it down to the edges
whose endpoints are both occupied, then renumbers through the compaction
array `vid = cumsum(lat) * lat` and subtracts 1.

The position vectors are
`i[p] = p % I + 1`, `j[p] = p / I + 1` for `p` in `range(I*J)`
(`np.meshgrid` with both transposed Fortran flattens), and the six index
classes per parity `f` are the `np.where` filters below, in increasing
position order. -/

/-- MATLAB-style 1-based row coordinate of flattened position `p`. -/
def iOf (I p : ℕ) : ℕ := p % I + 1

/-- MATLAB-style 1-based column coordinate of flattened position `p`. -/
def jOf (I p : ℕ) : ℕ := p / I + 1

def c1 (I J f : ℕ) : List ℕ :=
  (List.range (I * J)).filter fun p =>
    (iOf I p + jOf I p) % 2 == f && iOf I p < I && jOf I p < J

def c2 (I J f : ℕ) : List ℕ :=
  (List.range (I * J)).filter fun p =>
    (iOf I p + jOf I p) % 2 == f && 1 < iOf I p && jOf I p < J

def c11 (I J f : ℕ) : List ℕ :=
  (List.range (I * J)).filter fun p =>
    (iOf I p + jOf I p) % 2 == f && iOf I p == I && jOf I p < J

def c21 (I J f : ℕ) : List ℕ :=
  (List.range (I * J)).filter fun p =>
    (iOf I p + jOf I p) % 2 == f && iOf I p == I && 1 < jOf I p

def c12 (I J f : ℕ) : List ℕ :=
  (List.range (I * J)).filter fun p =>
    (iOf I p + jOf I p) % 2 == f && iOf I p < I && jOf I p == J

def c22 (I J f : ℕ) : List ℕ :=
  (List.range (I * J)).filter fun p =>
    (iOf I p + jOf I p) % 2 == f && 1 < iOf I p && jOf I p == J

/-- The ten column blocks of `edg0` (intra-slice edges; the `.T` of the
`np.block` turns column pairs into edge rows, `+ 1` makes voxel ids
1-based; positions `p` are already 0-based so the two `+1` offsets
combine). -/
def edg0 (I J f : ℕ) : List (ℤ × ℤ) :=
  ((c1 I J f).map fun p : ℕ => ((p : ℤ) + 1, (p : ℤ) + 2)) ++
  ((c1 I J f).map fun p : ℕ => ((p : ℤ) + 1, (p : ℤ) + I + 1)) ++
  ((c1 I J f).map fun p : ℕ => ((p : ℤ) + 1, (p : ℤ) + I + 2)) ++
  ((c2 I J f).map fun p : ℕ => ((p : ℤ), (p : ℤ) + 1)) ++
  ((c2 I J f).map fun p : ℕ => ((p : ℤ), (p : ℤ) + I)) ++
  ((c2 I J f).map fun p : ℕ => ((p : ℤ) + 1, (p : ℤ) + I)) ++
  ((c11 I J f).map fun p : ℕ => ((p : ℤ) + 1, (p : ℤ) + I + 1)) ++
  ((c21 I J f).map fun p : ℕ => ((p : ℤ) - I + 1, (p : ℤ) + 1)) ++
  ((c12 I J f).map fun p : ℕ => ((p : ℤ) + 1, (p : ℤ) + 2)) ++
  ((c22 I J f).map fun p : ℕ => ((p : ℤ), (p : ℤ) + 1))

/-- The seven column blocks of `edg1` (edges into the slice above). -/
def edg1 (I J f : ℕ) : List (ℤ × ℤ) :=
  ((c1 I J f).map fun p : ℕ => ((p : ℤ) + 1, (p : ℤ) + I * J + 1)) ++
  ((c1 I J f).map fun p : ℕ => ((p : ℤ) + 1, (p : ℤ) + I * J + 2)) ++
  ((c1 I J f).map fun p : ℕ => ((p : ℤ) + 1, (p : ℤ) + I + I * J + 1)) ++
  ((c11 I J f).map fun p : ℕ => ((p : ℤ) + 1, (p : ℤ) + I * J + 1)) ++
  ((c11 I J f).map fun p : ℕ => ((p : ℤ) + 1, (p : ℤ) + I + I * J + 1)) ++
  ((c12 I J f).map fun p : ℕ => ((p : ℤ) + 1, (p : ℤ) + I * J + 1)) ++
  ((c12 I J f).map fun p : ℕ => ((p : ℤ) + 1, (p : ℤ) + I * J + 2))

/-- The seven column blocks of `edg2` (diagonal edges into the slice
above). -/
def edg2 (I J f : ℕ) : List (ℤ × ℤ) :=
  ((c2 I J f).map fun p : ℕ => ((p : ℤ), (p : ℤ) + I * J)) ++
  ((c2 I J f).map fun p : ℕ => ((p : ℤ) + 1, (p : ℤ) + I * J)) ++
  ((c2 I J f).map fun p : ℕ => ((p : ℤ) + I, (p : ℤ) + I * J)) ++
  ((c21 I J f).map fun p : ℕ => ((p : ℤ) - I + 1, (p : ℤ) - I + I * J + 1)) ++
  ((c21 I J f).map fun p : ℕ => ((p : ℤ) + 1, (p : ℤ) - I + I * J + 1)) ++
  ((c22 I J f).map fun p : ℕ => ((p : ℤ), (p : ℤ) + I * J)) ++
  ((c22 I J f).map fun p : ℕ => ((p : ℤ) + 1, (p : ℤ) + I * J))

/-- Modelled from the spec: the helper `colon` imported from
`brainstat.stats.utils` is not among the provided sources.  Per the spec
the slice templates are tiled across all K-1 slice boundaries alternating
template assignment by parity, so `colon a b s` is the MATLAB-style
inclusive arithmetic range a, a+s, ..., b. -/
def colon (a b s : ℕ) : List ℕ :=
  if a ≤ b then (List.range ((b - a) / s + 1)).map fun t => a + s * t else []

def n1 (I J : ℕ) : ℕ := (I - 1) * (J - 1) * 6 + (I - 1) * 3 + (J - 1) * 3 + 1

def n2 (I J : ℕ) : ℕ := (I - 1) * (J - 1) * 3 + (I - 1) + (J - 1)

/-- The rows written for slice boundary `k` (k = 1 .. K-1): odd `k` is
written by the parity-0 pass in the order `[edg0; edg1; edg2; [IJ 2*IJ]]`,
even `k` by the parity-1 pass in the order `[edg0; edg2; edg1; [IJ 2*IJ]]`,
both shifted by `(k-1)*IJ`. -/
def sliceSeg (I J k : ℕ) : List (ℤ × ℤ) :=
  (if k % 2 = 1 then
      edg0 I J 0 ++ edg1 I J 0 ++ edg2 I J 0 ++
        [((I : ℤ) * J, 2 * ((I : ℤ) * J))]
    else
      edg0 I J 1 ++ edg2 I J 1 ++ edg1 I J 1 ++
        [((I : ℤ) * J, 2 * ((I : ℤ) * J))]).map
    fun e => (e.1 + ((k : ℤ) - 1) * ((I : ℤ) * J),
      e.2 + ((k : ℤ) - 1) * ((I : ℤ) * J))

/-- The assembled dense template: the preallocated `(K-1)*n1 + n2` row
array, slot `k` (row offset `(k-1)*n1`) holding `sliceSeg k` and the final
`n2` rows holding the top slice `edg0[0:n2] + (K-1)*IJ` of the parity
`(K+1) % 2` pass.  The functional concatenation below coincides with the
slot writes because every `sliceSeg` has exactly `n1` rows and
`edg0` has exactly `n2` rows per parity (`sliceSeg_length`,
`edg0_length`), and the slots `colon 1 (K-1) 2` of the parity-0 pass and
`colon 2 (K-1) 2` of the parity-1 pass partition 1 .. K-1 by parity
(`mem_colon_odd`, `mem_colon_even`). -/
def latTemplate (I J K : ℕ) : List (ℤ × ℤ) :=
  (((List.range (K - 1)).map fun k0 => sliceSeg I J (k0 + 1)).flatten) ++
    (((edg0 I J ((K + 1) % 2)).take (n2 I J)).map fun e =>
      (e.1 + ((K : ℤ) - 1) * ((I : ℤ) * J),
        e.2 + ((K : ℤ) - 1) * ((I : ℤ) * J)))

/-- Column-major (Fortran order) flattening of the I × J × K occupancy
array: `surf["lat"].T.flatten()`, with 0-based coordinates. -/
def flatF (I J K : ℕ) (lat : ℕ → ℕ → ℕ → Bool) : List Bool :=
  (List.range (I * J * K)).map fun p => lat (p % I) (p / I % J) (p / (I * J))

/-- Python sequence indexing: a negative index counts from the end.  An
out-of-range access would raise; it is modelled by the default `false`
and is proved unreachable for the template. -/
def pyNorm (len : ℕ) (x : ℤ) : ℕ :=
  (if x < 0 then (len : ℤ) + x else x).toNat

def pyIndex (l : List Bool) (x : ℤ) : Bool :=
  l.getD (pyNorm l.length x) false

/-- Occupancy of the (1-based) voxel id `e`: `lat.T.flatten()[e - 1]`. -/
def occAt (flat : List Bool) (e : ℤ) : Bool := pyIndex flat (e - 1)

/-- The `all_idx` filter: both endpoints inside the lattice. -/
def keepLatEdge (flat : List Bool) (ed : ℤ × ℤ) : Bool :=
  occAt flat ed.1 && occAt flat ed.2

/-- `np.cumsum` of the flattened occupancy, read before position `m`:
the number of occupied positions among the first `m`. -/
def cumOcc (flat : List Bool) (m : ℕ) : ℕ := (flat.take m).countP id

/-- `vid = cumsum(lat.T.flatten()) * lat.T.flatten()` read at (Python)
index `x`. -/
def vidAt (flat : List Bool) (x : ℤ) : ℤ :=
  if pyIndex flat x then (cumOcc flat (pyNorm flat.length x + 1) : ℤ) else 0

/-- The lattice branch of `mesh_edges`: dense template, `all_idx` filter,
compaction through `vid`, then `edg - 1`. -/
def meshEdgesLat (I J K : ℕ) (lat : ℕ → ℕ → ℕ → Bool) : List (ℤ × ℤ) :=
  ((latTemplate I J K).filter (keepLatEdge (flatF I J K lat))).map fun e =>
    (vidAt (flatF I J K lat) (e.1 - 1) - 1,
      vidAt (flatF I J K lat) (e.2 - 1) - 1)

/-- A 2-D lattice is promoted to a single-slice 3-D lattice
(`np.expand_dims(lat, axis=2)`). -/
def meshEdgesLat2 (I J : ℕ) (lat2 : ℕ → ℕ → Bool) : List (ℤ × ℤ) :=
  meshEdgesLat I J 1 fun i j _ => lat2 i j

theorem mem_c1 {I J f p : ℕ} : p ∈ c1 I J f ↔
    p < I * J ∧ (iOf I p + jOf I p) % 2 = f ∧ iOf I p < I ∧ jOf I p < J := by
  unfold c1
  simp only [List.mem_filter, List.mem_range, Bool.and_eq_true, beq_iff_eq,
    decide_eq_true_eq]
  tauto

theorem mem_c2 {I J f p : ℕ} : p ∈ c2 I J f ↔
    p < I * J ∧ (iOf I p + jOf I p) % 2 = f ∧ 1 < iOf I p ∧ jOf I p < J := by
  unfold c2
  simp only [List.mem_filter, List.mem_range, Bool.and_eq_true, beq_iff_eq,
    decide_eq_true_eq]
  tauto

theorem mem_c11 {I J f p : ℕ} : p ∈ c11 I J f ↔
    p < I * J ∧ (iOf I p + jOf I p) % 2 = f ∧ iOf I p = I ∧ jOf I p < J := by
  unfold c11
  simp only [List.mem_filter, List.mem_range, Bool.and_eq_true, beq_iff_eq,
    decide_eq_true_eq]
  tauto

theorem mem_c21 {I J f p : ℕ} : p ∈ c21 I J f ↔
    p < I * J ∧ (iOf I p + jOf I p) % 2 = f ∧ iOf I p = I ∧ 1 < jOf I p := by
  unfold c21
  simp only [List.mem_filter, List.mem_range, Bool.and_eq_true, beq_iff_eq,
    decide_eq_true_eq]
  tauto

theorem mem_c12 {I J f p : ℕ} : p ∈ c12 I J f ↔
    p < I * J ∧ (iOf I p + jOf I p) % 2 = f ∧ iOf I p < I ∧ jOf I p = J := by
  unfold c12
  simp only [List.mem_filter, List.mem_range, Bool.and_eq_true, beq_iff_eq,
    decide_eq_true_eq]
  tauto

theorem mem_c22 {I J f p : ℕ} : p ∈ c22 I J f ↔
    p < I * J ∧ (iOf I p + jOf I p) % 2 = f ∧ 1 < iOf I p ∧ jOf I p = J := by
  unfold c22
  simp only [List.mem_filter, List.mem_range, Bool.and_eq_true, beq_iff_eq,
    decide_eq_true_eq]
  tauto

theorem pos_of_lt_mul {p I J : ℕ} (hp : p < I * J) : 0 < I ∧ 0 < J := by
  constructor
  · rcases Nat.eq_zero_or_pos I with h | h
    · subst h; simp at hp
    · exact h
  · rcases Nat.eq_zero_or_pos J with h | h
    · subst h; simp at hp
    · exact h

theorem c1_decomp {I J f p : ℕ} (hp : p ∈ c1 I J f) :
    ∃ q r : ℕ, p = I * q + r ∧ r + 2 ≤ I ∧ q + 2 ≤ J := by
  rw [mem_c1] at hp
  unfold iOf jOf at hp
  exact ⟨p / I, p % I, (Nat.div_add_mod p I).symm, by omega, by omega⟩

theorem c2_decomp {I J f p : ℕ} (hp : p ∈ c2 I J f) :
    ∃ q r : ℕ, p = I * q + r ∧ 1 ≤ r ∧ r + 1 ≤ I ∧ q + 2 ≤ J := by
  rw [mem_c2] at hp
  unfold iOf jOf at hp
  have hI : 0 < I := (pos_of_lt_mul hp.1).1
  have := Nat.mod_lt p hI
  exact ⟨p / I, p % I, (Nat.div_add_mod p I).symm, by omega, by omega, by omega⟩

theorem c11_decomp {I J f p : ℕ} (hp : p ∈ c11 I J f) :
    ∃ q : ℕ, p = I * q + (I - 1) ∧ 1 ≤ I ∧ q + 2 ≤ J := by
  rw [mem_c11] at hp
  unfold iOf jOf at hp
  have hmod := Nat.div_add_mod p I
  exact ⟨p / I, by omega, by omega, by omega⟩

theorem c21_decomp {I J f p : ℕ} (hp : p ∈ c21 I J f) :
    ∃ q : ℕ, p = I * q + (I - 1) ∧ 1 ≤ I ∧ 1 ≤ q ∧ q + 1 ≤ J := by
  rw [mem_c21] at hp
  unfold iOf jOf at hp
  have hI : 0 < I := by omega
  have hq : p / I < J := Nat.div_lt_of_lt_mul (by omega)
  have hmod := Nat.div_add_mod p I
  exact ⟨p / I, by omega, by omega, by omega, by omega⟩

theorem c12_decomp {I J f p : ℕ} (hp : p ∈ c12 I J f) :
    ∃ q r : ℕ, p = I * q + r ∧ r + 2 ≤ I ∧ q + 1 = J := by
  rw [mem_c12] at hp
  unfold iOf jOf at hp
  exact ⟨p / I, p % I, (Nat.div_add_mod p I).symm, by omega, by omega⟩

theorem c22_decomp {I J f p : ℕ} (hp : p ∈ c22 I J f) :
    ∃ q r : ℕ, p = I * q + r ∧ 1 ≤ r ∧ r + 1 ≤ I ∧ q + 1 = J := by
  rw [mem_c22] at hp
  unfold iOf jOf at hp
  have hI : 0 < I := (pos_of_lt_mul hp.1).1
  have := Nat.mod_lt p hI
  exact ⟨p / I, p % I, (Nat.div_add_mod p I).symm, by omega, by omega, by omega⟩

/-- One bound pattern covering every template entry: an entry at intra-slice
position `I*q + r` plus offset `c` stays within the slice when `r + c` fits
in `e` extra rows and `q + e` columns fit. -/
theorem latBound {I J q r c e : ℕ} (h1 : r + c ≤ e * I) (h2 : q + e ≤ J) :
    I * q + r + c ≤ I * J := by
  have h4 : I * (q + e) ≤ I * J := Nat.mul_le_mul_left I h2
  have h3 : I * (q + e) = I * q + e * I := by ring
  omega

/-- Every intra-slice template edge has 1-based endpoints inside the slice,
the smaller one first. -/
theorem edg0_bounds {I J f : ℕ} {ed : ℤ × ℤ} (h : ed ∈ edg0 I J f) :
    1 ≤ ed.1 ∧ ed.1 < ed.2 ∧ ed.2 ≤ (I : ℤ) * J := by
  unfold edg0 at h
  simp only [List.mem_append] at h
  have hcast : ((I : ℤ) * (J : ℤ)) = ((I * J : ℕ) : ℤ) := by push_cast; ring
  rcases h with (((((((((h | h) | h) | h) | h) | h) | h) | h) | h) | h) <;>
    obtain ⟨p, hp, rfl⟩ := List.mem_map.mp h
  · obtain ⟨q, r, hpqr, hr, hq⟩ := c1_decomp hp
    have hmul := Nat.mul_le_mul_left I (show q + 2 ≤ J from hq)
    have hexp : I * (q + 2) = I * q + 2 * I := by ring
    have hb : p + I + 2 ≤ I * J := by omega
    exact ⟨by omega, by omega, by omega⟩
  · obtain ⟨q, r, hpqr, hr, hq⟩ := c1_decomp hp
    have hmul := Nat.mul_le_mul_left I (show q + 2 ≤ J from hq)
    have hexp : I * (q + 2) = I * q + 2 * I := by ring
    have hb : p + I + 2 ≤ I * J := by omega
    exact ⟨by omega, by omega, by omega⟩
  · obtain ⟨q, r, hpqr, hr, hq⟩ := c1_decomp hp
    have hmul := Nat.mul_le_mul_left I (show q + 2 ≤ J from hq)
    have hexp : I * (q + 2) = I * q + 2 * I := by ring
    have hb : p + I + 2 ≤ I * J := by omega
    exact ⟨by omega, by omega, by omega⟩
  · obtain ⟨q, r, hpqr, hr1, hr, hq⟩ := c2_decomp hp
    have hmul := Nat.mul_le_mul_left I (show q + 2 ≤ J from hq)
    have hexp : I * (q + 2) = I * q + 2 * I := by ring
    have hb : p + I ≤ I * J := by omega
    exact ⟨by omega, by omega, by omega⟩
  · obtain ⟨q, r, hpqr, hr1, hr, hq⟩ := c2_decomp hp
    have hmul := Nat.mul_le_mul_left I (show q + 2 ≤ J from hq)
    have hexp : I * (q + 2) = I * q + 2 * I := by ring
    have hb : p + I ≤ I * J := by omega
    exact ⟨by omega, by omega, by omega⟩
  · obtain ⟨q, r, hpqr, hr1, hr, hq⟩ := c2_decomp hp
    have hmul := Nat.mul_le_mul_left I (show q + 2 ≤ J from hq)
    have hexp : I * (q + 2) = I * q + 2 * I := by ring
    have hb : p + I ≤ I * J := by omega
    exact ⟨by omega, by omega, by omega⟩
  · obtain ⟨q, hpqr, hI, hq⟩ := c11_decomp hp
    have hmul := Nat.mul_le_mul_left I (show q + 2 ≤ J from hq)
    have hexp : I * (q + 2) = I * q + 2 * I := by ring
    have hb : p + I + 1 ≤ I * J := by omega
    exact ⟨by omega, by omega, by omega⟩
  · obtain ⟨q, hpqr, hI, hq1, hq⟩ := c21_decomp hp
    have hmul := Nat.mul_le_mul_left I (show q + 1 ≤ J from hq)
    have hexp : I * (q + 1) = I * q + I := by ring
    have hmul1 := Nat.mul_le_mul_left I (show 1 ≤ q from hq1)
    have hb : p + 1 ≤ I * J := by omega
    exact ⟨by omega, by omega, by omega⟩
  · obtain ⟨q, r, hpqr, hr, hq⟩ := c12_decomp hp
    have hmul := Nat.mul_le_mul_left I (show q + 1 ≤ J by omega)
    have hexp : I * (q + 1) = I * q + I := by ring
    have hb : p + 2 ≤ I * J := by omega
    exact ⟨by omega, by omega, by omega⟩
  · obtain ⟨q, r, hpqr, hr1, hr, hq⟩ := c22_decomp hp
    have hmul := Nat.mul_le_mul_left I (show q + 1 ≤ J by omega)
    have hexp : I * (q + 1) = I * q + I := by ring
    have hb : p + 1 ≤ I * J := by omega
    exact ⟨by omega, by omega, by omega⟩

/-- Every slice-to-slice template edge of `edg1` starts inside the slice
and ends inside the next slice. -/
theorem edg1_bounds {I J f : ℕ} {ed : ℤ × ℤ} (h : ed ∈ edg1 I J f) :
    1 ≤ ed.1 ∧ ed.1 < ed.2 ∧ ed.2 ≤ 2 * ((I : ℤ) * J) := by
  unfold edg1 at h
  simp only [List.mem_append] at h
  have hcast : ((I : ℤ) * (J : ℤ)) = ((I * J : ℕ) : ℤ) := by push_cast; ring
  rcases h with ((((((h | h) | h) | h) | h) | h) | h) <;>
    obtain ⟨p, hp, rfl⟩ := List.mem_map.mp h
  · obtain ⟨q, r, hpqr, hr, hq⟩ := c1_decomp hp
    have hmul := Nat.mul_le_mul_left I (show q + 2 ≤ J from hq)
    have hexp : I * (q + 2) = I * q + 2 * I := by ring
    have hb : p + I + 2 ≤ I * J := by omega
    exact ⟨by omega, by omega, by omega⟩
  · obtain ⟨q, r, hpqr, hr, hq⟩ := c1_decomp hp
    have hmul := Nat.mul_le_mul_left I (show q + 2 ≤ J from hq)
    have hexp : I * (q + 2) = I * q + 2 * I := by ring
    have hb : p + I + 2 ≤ I * J := by omega
    exact ⟨by omega, by omega, by omega⟩
  · obtain ⟨q, r, hpqr, hr, hq⟩ := c1_decomp hp
    have hmul := Nat.mul_le_mul_left I (show q + 2 ≤ J from hq)
    have hexp : I * (q + 2) = I * q + 2 * I := by ring
    have hb : p + I + 2 ≤ I * J := by omega
    exact ⟨by omega, by omega, by omega⟩
  · obtain ⟨q, hpqr, hI, hq⟩ := c11_decomp hp
    have hmul := Nat.mul_le_mul_left I (show q + 2 ≤ J from hq)
    have hexp : I * (q + 2) = I * q + 2 * I := by ring
    have hb : p + I + 1 ≤ I * J := by omega
    exact ⟨by omega, by omega, by omega⟩
  · obtain ⟨q, hpqr, hI, hq⟩ := c11_decomp hp
    have hmul := Nat.mul_le_mul_left I (show q + 2 ≤ J from hq)
    have hexp : I * (q + 2) = I * q + 2 * I := by ring
    have hb : p + I + 1 ≤ I * J := by omega
    exact ⟨by omega, by omega, by omega⟩
  · obtain ⟨q, r, hpqr, hr, hq⟩ := c12_decomp hp
    have hmul := Nat.mul_le_mul_left I (show q + 1 ≤ J by omega)
    have hexp : I * (q + 1) = I * q + I := by ring
    have hb : p + 2 ≤ I * J := by omega
    exact ⟨by omega, by omega, by omega⟩
  · obtain ⟨q, r, hpqr, hr, hq⟩ := c12_decomp hp
    have hmul := Nat.mul_le_mul_left I (show q + 1 ≤ J by omega)
    have hexp : I * (q + 1) = I * q + I := by ring
    have hb : p + 2 ≤ I * J := by omega
    exact ⟨by omega, by omega, by omega⟩

/-- Every diagonal slice-to-slice template edge of `edg2` starts inside the
slice and ends inside the next slice. -/
theorem edg2_bounds {I J f : ℕ} {ed : ℤ × ℤ} (h : ed ∈ edg2 I J f) :
    1 ≤ ed.1 ∧ ed.1 < ed.2 ∧ ed.2 ≤ 2 * ((I : ℤ) * J) := by
  unfold edg2 at h
  simp only [List.mem_append] at h
  have hcast : ((I : ℤ) * (J : ℤ)) = ((I * J : ℕ) : ℤ) := by push_cast; ring
  rcases h with ((((((h | h) | h) | h) | h) | h) | h) <;>
    obtain ⟨p, hp, rfl⟩ := List.mem_map.mp h
  · obtain ⟨q, r, hpqr, hr1, hr, hq⟩ := c2_decomp hp
    have hmul := Nat.mul_le_mul_left I (show q + 2 ≤ J from hq)
    have hexp : I * (q + 2) = I * q + 2 * I := by ring
    have hb : p + I ≤ I * J := by omega
    exact ⟨by omega, by omega, by omega⟩
  · obtain ⟨q, r, hpqr, hr1, hr, hq⟩ := c2_decomp hp
    have hmul := Nat.mul_le_mul_left I (show q + 2 ≤ J from hq)
    have hexp : I * (q + 2) = I * q + 2 * I := by ring
    have h4 : 2 * 2 ≤ I * J := Nat.mul_le_mul (by omega) (by omega)
    have hb : p + I ≤ I * J := by omega
    exact ⟨by omega, by omega, by omega⟩
  · obtain ⟨q, r, hpqr, hr1, hr, hq⟩ := c2_decomp hp
    have hmul := Nat.mul_le_mul_left I (show q + 2 ≤ J from hq)
    have hexp : I * (q + 2) = I * q + 2 * I := by ring
    have hmulJ := Nat.mul_le_mul_left I (show 2 ≤ J by omega)
    have hb : p + I ≤ I * J := by omega
    exact ⟨by omega, by omega, by omega⟩
  · obtain ⟨q, hpqr, hI, hq1, hq⟩ := c21_decomp hp
    have hmul := Nat.mul_le_mul_left I (show q + 1 ≤ J from hq)
    have hexp : I * (q + 1) = I * q + I := by ring
    have hmul1 := Nat.mul_le_mul_left I (show 1 ≤ q from hq1)
    have hb : p + 1 ≤ I * J := by omega
    exact ⟨by omega, by omega, by omega⟩
  · obtain ⟨q, hpqr, hI, hq1, hq⟩ := c21_decomp hp
    have hmul := Nat.mul_le_mul_left I (show q + 1 ≤ J from hq)
    have hexp : I * (q + 1) = I * q + I := by ring
    have hmulJ := Nat.mul_le_mul_left I (show 2 ≤ J by omega)
    have hb : p + 1 ≤ I * J := by omega
    exact ⟨by omega, by omega, by omega⟩
  · obtain ⟨q, r, hpqr, hr1, hr, hq⟩ := c22_decomp hp
    have hmul := Nat.mul_le_mul_left I (show q + 1 ≤ J by omega)
    have hexp : I * (q + 1) = I * q + I := by ring
    have hb : p + 1 ≤ I * J := by omega
    exact ⟨by omega, by omega, by omega⟩
  · obtain ⟨q, r, hpqr, hr1, hr, hq⟩ := c22_decomp hp
    have hmul := Nat.mul_le_mul_left I (show q + 1 ≤ J by omega)
    have hexp : I * (q + 1) = I * q + I := by ring
    have h4 : 2 * 1 ≤ I * J := Nat.mul_le_mul (by omega) (by omega)
    have hb : p + 1 ≤ I * J := by omega
    exact ⟨by omega, by omega, by omega⟩

/-- Every edge of the assembled dense template has 1-based endpoints inside
the full I × J × K grid, the smaller one first. -/
theorem latTemplate_bounds {I J K : ℕ} (hI : 1 ≤ I) (hJ : 1 ≤ J)
    (hK : 1 ≤ K) {ed : ℤ × ℤ} (h : ed ∈ latTemplate I J K) :
    1 ≤ ed.1 ∧ ed.1 < ed.2 ∧ ed.2 ≤ (I : ℤ) * J * K := by
  have hIJ : 0 < I * J := Nat.mul_pos hI hJ
  have hIJz : (1 : ℤ) ≤ (I : ℤ) * J := by exact_mod_cast hIJ
  have hcomm : (I : ℤ) * J * K = (K : ℤ) * ((I : ℤ) * J) := by ring
  unfold latTemplate at h
  rw [List.mem_append] at h
  rcases h with h | h
  · rw [List.mem_flatten] at h
    rcases h with ⟨seg, hseg, hed⟩
    rcases List.mem_map.mp hseg with ⟨k0, hk0, rfl⟩
    rw [List.mem_range] at hk0
    unfold sliceSeg at hed
    obtain ⟨b, hb, rfl⟩ := List.mem_map.mp hed
    have hbase : 1 ≤ b.1 ∧ b.1 < b.2 ∧ b.2 ≤ 2 * ((I : ℤ) * J) := by
      by_cases hpar : (k0 + 1) % 2 = 1
      · rw [if_pos hpar] at hb
        simp only [List.mem_append] at hb
        rcases hb with ((hb | hb) | hb) | hb
        · have h0 := edg0_bounds hb
          exact ⟨h0.1, h0.2.1, by omega⟩
        · exact edg1_bounds hb
        · exact edg2_bounds hb
        · rw [List.mem_singleton] at hb
          subst hb
          exact ⟨by omega, by omega, by omega⟩
      · rw [if_neg hpar] at hb
        simp only [List.mem_append] at hb
        rcases hb with ((hb | hb) | hb) | hb
        · have h0 := edg0_bounds hb
          exact ⟨h0.1, h0.2.1, by omega⟩
        · exact edg2_bounds hb
        · exact edg1_bounds hb
        · rw [List.mem_singleton] at hb
          subst hb
          exact ⟨by omega, by omega, by omega⟩
    dsimp only
    have hsh_eq : (((k0 + 1 : ℕ) : ℤ) - 1) * ((I : ℤ) * J) =
        (k0 : ℤ) * ((I : ℤ) * J) := by push_cast; ring
    have hsh_nn : 0 ≤ (k0 : ℤ) * ((I : ℤ) * J) := by positivity
    have hmulK : ((k0 : ℤ) + 2) * ((I : ℤ) * J) ≤ (K : ℤ) * ((I : ℤ) * J) := by
      apply mul_le_mul_of_nonneg_right _ (by positivity)
      omega
    have hexpK : ((k0 : ℤ) + 2) * ((I : ℤ) * J) =
        (k0 : ℤ) * ((I : ℤ) * J) + 2 * ((I : ℤ) * J) := by ring
    rw [hsh_eq]
    exact ⟨by omega, by omega, by omega⟩
  · obtain ⟨b, hb, rfl⟩ := List.mem_map.mp h
    have hb0 := edg0_bounds (List.take_subset _ _ hb)
    dsimp only
    have hnn : 0 ≤ ((K : ℤ) - 1) * ((I : ℤ) * J) := by
      have h1 : (1 : ℤ) ≤ (K : ℤ) := by exact_mod_cast hK
      exact mul_nonneg (by omega) (by positivity)
    have hmulK : ((K : ℤ) - 1) * ((I : ℤ) * J) + (I : ℤ) * J =
        (K : ℤ) * ((I : ℤ) * J) := by ring
    exact ⟨by omega, by omega, by omega⟩

theorem length_flatF (I J K : ℕ) (lat : ℕ → ℕ → ℕ → Bool) :
    (flatF I J K lat).length = I * J * K := by
  unfold flatF
  rw [List.length_map, List.length_range]

theorem flatF_getD {I J K p : ℕ} (lat : ℕ → ℕ → ℕ → Bool)
    (hp : p < I * J * K) :
    (flatF I J K lat).getD p false =
      lat (p % I) (p / I % J) (p / (I * J)) := by
  unfold flatF
  have hlen : p < ((List.range (I * J * K)).map fun p =>
      lat (p % I) (p / I % J) (p / (I * J))).length := by
    rw [List.length_map, List.length_range]
    exact hp
  rw [List.getD_eq_getElem _ _ hlen]
  simp

theorem pyNorm_of_nonneg {len : ℕ} {x : ℤ} (h0 : 0 ≤ x) :
    pyNorm len x = x.toNat := by
  unfold pyNorm
  rw [if_neg (by omega)]

theorem cumOcc_succ (flat : List Bool) (q : ℕ) :
    cumOcc flat (q + 1) =
      cumOcc flat q + (if flat.getD q false then 1 else 0) := by
  unfold cumOcc
  rw [List.take_succ, List.countP_append]
  congr 1
  rcases hq : flat[q]? with _ | b
  · simp [List.getD_eq_getElem?_getD, hq]
  · rcases b <;> simp [List.getD_eq_getElem?_getD, hq, List.countP_cons]

theorem cumOcc_mono (flat : List Bool) {m m' : ℕ} (h : m ≤ m') :
    cumOcc flat m ≤ cumOcc flat m' := by
  induction m', h using Nat.le_induction with
  | base => exact le_rfl
  | succ n hn ih =>
    rw [cumOcc_succ]
    split <;> omega

theorem cumOcc_le_total (flat : List Bool) (m : ℕ) :
    cumOcc flat m ≤ flat.countP id :=
  (List.take_sublist m flat).countP_le id

theorem pyIndex_false_of_all_false {l : List Bool}
    (h : ∀ b ∈ l, b = false) (x : ℤ) : pyIndex l x = false := by
  unfold pyIndex
  rcases hg : l[pyNorm l.length x]? with _ | b
  · simp [List.getD_eq_getElem?_getD, hg]
  · rw [List.getD_eq_getElem?_getD, hg]
    exact h b (List.getElem?_mem hg)

/-- C8: every edge returned by the lattice branch of `mesh_edges` joins two
distinct occupied voxels: each endpoint is the 0-based compacted index of
an occupied lattice position, the two positions are distinct and both
occupied, the two compact indices differ, and both indices lie inside
[0, number of occupied voxels).  A completely empty lattice yields an
empty edge list, and the 2-D entry point is the K = 1 instance of the 3-D
one. -/
theorem meshEdgesLat_occupied_distinct (I J K : ℕ) (lat : ℕ → ℕ → ℕ → Bool)
    (hI : 1 ≤ I) (hJ : 1 ≤ J) (hK : 1 ≤ K) :
    (∀ e ∈ meshEdgesLat I J K lat, ∃ p q : ℕ,
      p < I * J * K ∧ q < I * J * K ∧ p ≠ q ∧
      lat (p % I) (p / I % J) (p / (I * J)) = true ∧
      lat (q % I) (q / I % J) (q / (I * J)) = true ∧
      e.1 = (cumOcc (flatF I J K lat) (p + 1) : ℤ) - 1 ∧
      e.2 = (cumOcc (flatF I J K lat) (q + 1) : ℤ) - 1 ∧
      e.1 ≠ e.2 ∧
      0 ≤ e.1 ∧ e.1 < ((flatF I J K lat).countP id : ℤ) ∧
      0 ≤ e.2 ∧ e.2 < ((flatF I J K lat).countP id : ℤ)) ∧
    ((∀ i j k : ℕ, lat i j k = false) → meshEdgesLat I J K lat = []) ∧
    (∀ lat2 : ℕ → ℕ → Bool, meshEdgesLat2 I J lat2 =
      meshEdgesLat I J 1 fun i j _ => lat2 i j) := by
  refine ⟨?_, ?_, fun lat2 => rfl⟩
  · intro e he
    unfold meshEdgesLat at he
    obtain ⟨ed, hed, rfl⟩ := List.mem_map.mp he
    rw [List.mem_filter] at hed
    rcases hed with ⟨htmp, hkeep⟩
    have hbnd := latTemplate_bounds hI hJ hK htmp
    have hlen := length_flatF I J K lat
    have hNz : ((I * J * K : ℕ) : ℤ) = (I : ℤ) * J * K := by push_cast; ring
    unfold keepLatEdge at hkeep
    rw [Bool.and_eq_true_iff] at hkeep
    rcases hkeep with ⟨hk1, hk2⟩
    unfold occAt at hk1 hk2
    have h10 : (0 : ℤ) ≤ ed.1 - 1 := by omega
    have h20 : (0 : ℤ) ≤ ed.2 - 1 := by omega
    have hn1 : pyNorm (flatF I J K lat).length (ed.1 - 1) = (ed.1 - 1).toNat :=
      pyNorm_of_nonneg h10
    have hn2 : pyNorm (flatF I J K lat).length (ed.2 - 1) = (ed.2 - 1).toNat :=
      pyNorm_of_nonneg h20
    set p := (ed.1 - 1).toNat with hp_def
    set q := (ed.2 - 1).toNat with hq_def
    have hpN : p < I * J * K := by omega
    have hqN : q < I * J * K := by omega
    have hpq : p < q := by omega
    have hg1 : (flatF I J K lat).getD p false = true := by
      unfold pyIndex at hk1
      rw [hn1] at hk1
      exact hk1
    have hg2 : (flatF I J K lat).getD q false = true := by
      unfold pyIndex at hk2
      rw [hn2] at hk2
      exact hk2
    have hv1 : vidAt (flatF I J K lat) (ed.1 - 1) =
        (cumOcc (flatF I J K lat) (p + 1) : ℤ) := by
      unfold vidAt pyIndex
      rw [hn1, if_pos hg1]
    have hv2 : vidAt (flatF I J K lat) (ed.2 - 1) =
        (cumOcc (flatF I J K lat) (q + 1) : ℤ) := by
      unfold vidAt pyIndex
      rw [hn2, if_pos hg2]
    have hocc1 : 1 ≤ cumOcc (flatF I J K lat) (p + 1) := by
      rw [cumOcc_succ, if_pos hg1]
      omega
    have hocc2 : 1 ≤ cumOcc (flatF I J K lat) (q + 1) := by
      rw [cumOcc_succ, if_pos hg2]
      omega
    have hstrict : cumOcc (flatF I J K lat) (p + 1) <
        cumOcc (flatF I J K lat) (q + 1) := by
      have hmono := cumOcc_mono (flatF I J K lat) (show p + 1 ≤ q from hpq)
      rw [cumOcc_succ (flatF I J K lat) q, if_pos hg2]
      omega
    have htot1 := cumOcc_le_total (flatF I J K lat) (p + 1)
    have htot2 := cumOcc_le_total (flatF I J K lat) (q + 1)
    have hcount1 : cumOcc (flatF I J K lat) (p + 1) ≤
        (flatF I J K lat).countP id := htot1
    refine ⟨p, q, hpN, hqN, by omega, ?_, ?_, ?_, ?_, ?_, ?_, ?_, ?_, ?_⟩
    · rw [← flatF_getD lat hpN]
      exact hg1
    · rw [← flatF_getD lat hqN]
      exact hg2
    · dsimp only
      rw [hv1]
    · dsimp only
      rw [hv2]
    · dsimp only
      rw [hv1, hv2]
      omega
    · dsimp only
      rw [hv1]
      omega
    · dsimp only
      rw [hv1]
      omega
    · dsimp only
      rw [hv2]
      omega
    · dsimp only
      rw [hv2]
      omega
  · intro hall
    unfold meshEdgesLat
    have hflat : ∀ b ∈ flatF I J K lat, b = false := by
      intro b hb
      unfold flatF at hb
      obtain ⟨pp, _, rfl⟩ := List.mem_map.mp hb
      exact hall _ _ _
    have hfil : (latTemplate I J K).filter
        (keepLatEdge (flatF I J K lat)) = [] := by
      rw [List.filter_eq_nil_iff]
      intro ed _
      unfold keepLatEdge occAt
      rw [pyIndex_false_of_all_false hflat]
      simp
    rw [hfil]
    rfl

/-- Concrete instance of the C8 theorem: the empty 2 × 2 × 1 lattice has no
edges. -/
theorem meshEdgesLat_occupied_distinct_witness :
    meshEdgesLat 2 2 1 (fun _ _ _ => false) = [] :=
  (meshEdgesLat_occupied_distinct 2 2 1 (fun _ _ _ => false)
    (by decide) (by decide) (by decide)).2.1 fun _ _ _ => rfl

/-! ### Row counts of the template blocks

These lemmas justify the functional assembly of `latTemplate`: every slice
payload has exactly `n1` rows, matching the size of its preallocated slot,
the parity-selected `edg0` has exactly `n2` rows, matching the top-slice
slot, and the `colon` slot indices of the two parity passes partition
1 .. K-1, so the slot-write program and the concatenation agree. -/

theorem mem_colon_odd {k n : ℕ} : k ∈ colon 1 n 2 ↔
    1 ≤ k ∧ k ≤ n ∧ k % 2 = 1 := by
  unfold colon
  by_cases h : 1 ≤ n
  · rw [if_pos h]
    simp only [List.mem_map, List.mem_range]
    constructor
    · rintro ⟨t, ht, rfl⟩
      omega
    · rintro ⟨h1, h2, h3⟩
      exact ⟨(k - 1) / 2, by omega, by omega⟩
  · rw [if_neg h]
    simp only [List.not_mem_nil, false_iff]
    omega

theorem mem_colon_even {k n : ℕ} : k ∈ colon 2 n 2 ↔
    2 ≤ k ∧ k ≤ n ∧ k % 2 = 0 := by
  unfold colon
  by_cases h : 2 ≤ n
  · rw [if_pos h]
    simp only [List.mem_map, List.mem_range]
    constructor
    · rintro ⟨t, ht, rfl⟩
      omega
    · rintro ⟨h1, h2, h3⟩
      exact ⟨(k - 2) / 2, by omega, by omega⟩
  · rw [if_neg h]
    simp only [List.not_mem_nil, false_iff]
    omega

theorem length_filter_range (n : ℕ) (p : ℕ → Bool) :
    ((List.range n).filter p).length =
      ((Finset.range n).filter fun x => p x = true).card := by
  classical
  unfold Finset.card
  rw [Finset.filter_val, Finset.range_val, ← Multiset.coe_range,
    Multiset.filter_coe, Multiset.coe_card]
  have : ∀ a ∈ List.range n,
      (decide (p a = true)) = p a := by
    intro a _
    rcases h : p a with _ | _ <;> simp [h]
  rw [List.filter_congr this]

theorem decompose_mod_div {I q r : ℕ} (hI : 0 < I) (hr : r < I) :
    (I * q + r) % I = r ∧ (I * q + r) / I = q := by
  constructor
  · rw [Nat.mul_add_mod, Nat.mod_eq_of_lt hr]
  · rw [Nat.mul_add_div hI, Nat.div_eq_of_lt hr]
    omega

/-- The parity coordinate used by the checkerboard classes. -/
def parOf (I p : ℕ) : ℕ := (iOf I p + jOf I p) % 2

theorem c1_card (I J f : ℕ) :
    (c1 I J f).length = ((Finset.range (I * J)).filter fun p =>
      parOf I p = f ∧ iOf I p < I ∧ jOf I p < J).card := by
  classical
  unfold c1
  rw [length_filter_range]
  congr 1
  apply Finset.filter_congr
  intro x _
  unfold parOf
  simp only [Bool.and_eq_true, beq_iff_eq, decide_eq_true_eq]
  tauto

theorem c2_card (I J f : ℕ) :
    (c2 I J f).length = ((Finset.range (I * J)).filter fun p =>
      parOf I p = f ∧ 1 < iOf I p ∧ jOf I p < J).card := by
  classical
  unfold c2
  rw [length_filter_range]
  congr 1
  apply Finset.filter_congr
  intro x _
  unfold parOf
  simp only [Bool.and_eq_true, beq_iff_eq, decide_eq_true_eq]
  tauto

theorem c11_card (I J f : ℕ) :
    (c11 I J f).length = ((Finset.range (I * J)).filter fun p =>
      parOf I p = f ∧ iOf I p = I ∧ jOf I p < J).card := by
  classical
  unfold c11
  rw [length_filter_range]
  congr 1
  apply Finset.filter_congr
  intro x _
  unfold parOf
  simp only [Bool.and_eq_true, beq_iff_eq, decide_eq_true_eq]
  tauto

theorem c21_card (I J f : ℕ) :
    (c21 I J f).length = ((Finset.range (I * J)).filter fun p =>
      parOf I p = f ∧ iOf I p = I ∧ 1 < jOf I p).card := by
  classical
  unfold c21
  rw [length_filter_range]
  congr 1
  apply Finset.filter_congr
  intro x _
  unfold parOf
  simp only [Bool.and_eq_true, beq_iff_eq, decide_eq_true_eq]
  tauto

theorem c12_card (I J f : ℕ) :
    (c12 I J f).length = ((Finset.range (I * J)).filter fun p =>
      parOf I p = f ∧ iOf I p < I ∧ jOf I p = J).card := by
  classical
  unfold c12
  rw [length_filter_range]
  congr 1
  apply Finset.filter_congr
  intro x _
  unfold parOf
  simp only [Bool.and_eq_true, beq_iff_eq, decide_eq_true_eq]
  tauto

theorem c22_card (I J f : ℕ) :
    (c22 I J f).length = ((Finset.range (I * J)).filter fun p =>
      parOf I p = f ∧ 1 < iOf I p ∧ jOf I p = J).card := by
  classical
  unfold c22
  rw [length_filter_range]
  congr 1
  apply Finset.filter_congr
  intro x _
  unfold parOf
  simp only [Bool.and_eq_true, beq_iff_eq, decide_eq_true_eq]
  tauto

theorem parity_partition (n : ℕ) (B : ℕ → Prop) [DecidablePred B]
    (g : ℕ → ℕ) (hg : ∀ p, g p < 2) (f : ℕ) (hf : f < 2) :
    ((Finset.range n).filter fun p => g p = f ∧ B p).card +
      ((Finset.range n).filter fun p => g p = 1 - f ∧ B p).card =
      ((Finset.range n).filter B).card := by
  classical
  have h1 : ((Finset.range n).filter fun p => g p = f ∧ B p) =
      ((Finset.range n).filter B).filter fun p => g p = f := by
    rw [Finset.filter_filter]
    apply Finset.filter_congr
    intro x _
    tauto
  have h2 : ((Finset.range n).filter fun p => g p = 1 - f ∧ B p) =
      ((Finset.range n).filter B).filter fun p => ¬(g p = f) := by
    rw [Finset.filter_filter]
    apply Finset.filter_congr
    intro x _
    have := hg x
    constructor
    · rintro ⟨hp, hB⟩
      exact ⟨hB, by omega⟩
    · rintro ⟨hB, hp⟩
      exact ⟨by omega, hB⟩
  rw [h1, h2]
  exact Finset.filter_card_add_filter_neg_card_eq_card _

theorem card_flip_c2 (I J f : ℕ) (hf : f < 2) :
    ((Finset.range (I * J)).filter fun p =>
      parOf I p = f ∧ 1 < iOf I p ∧ jOf I p < J).card =
    ((Finset.range (I * J)).filter fun p =>
      parOf I p = (1 - f) ∧ iOf I p < I ∧ jOf I p < J).card := by
  classical
  apply Finset.card_nbij' (fun x => x - 1) (fun y => y + 1)
  · intro a ha
    rw [Finset.mem_filter, Finset.mem_range] at ha ⊢
    obtain ⟨haN, hpar, hi, hj⟩ := ha
    unfold parOf iOf jOf at *
    have hI : 0 < I := (pos_of_lt_mul haN).1
    have hmod := Nat.div_add_mod a I
    have hltI := Nat.mod_lt a hI
    have ha1 : a - 1 = I * (a / I) + (a % I - 1) := by omega
    have hd := decompose_mod_div (q := a / I) (r := a % I - 1) hI (by omega)
    rw [ha1, hd.1, hd.2]
    refine ⟨by omega, by omega, by omega, by omega⟩
  · intro b hb
    rw [Finset.mem_filter, Finset.mem_range] at hb ⊢
    obtain ⟨hbN, hpar, hi, hj⟩ := hb
    unfold parOf iOf jOf at *
    have hI : 0 < I := (pos_of_lt_mul hbN).1
    have hmod := Nat.div_add_mod b I
    have hltI := Nat.mod_lt b hI
    have hb1 : b + 1 = I * (b / I) + (b % I + 1) := by omega
    have hd := decompose_mod_div (q := b / I) (r := b % I + 1) hI (by omega)
    have hmul := Nat.mul_le_mul_left I (show b / I + 1 ≤ J by omega)
    have hexp : I * (b / I + 1) = I * (b / I) + I := by ring
    rw [hb1, hd.1, hd.2]
    refine ⟨by omega, by omega, by omega, by omega⟩
  · intro a ha
    rw [Finset.mem_filter, Finset.mem_range] at ha
    unfold parOf iOf jOf at ha
    have hI : 0 < I := (pos_of_lt_mul ha.1).1
    have hmod := Nat.div_add_mod a I
    omega
  · intro b _
    omega

theorem card_flip_c21 (I J f : ℕ) (hf : f < 2) :
    ((Finset.range (I * J)).filter fun p =>
      parOf I p = f ∧ iOf I p = I ∧ 1 < jOf I p).card =
    ((Finset.range (I * J)).filter fun p =>
      parOf I p = (1 - f) ∧ iOf I p = I ∧ jOf I p < J).card := by
  classical
  apply Finset.card_nbij' (fun x => x - I) (fun y => y + I)
  · intro a ha
    rw [Finset.mem_filter, Finset.mem_range] at ha ⊢
    obtain ⟨haN, hpar, hi, hj⟩ := ha
    unfold parOf iOf jOf at *
    have hI : 0 < I := by omega
    have hmod := Nat.div_add_mod a I
    have hltI := Nat.mod_lt a hI
    have hdivJ : a / I < J := Nat.div_lt_of_lt_mul (by omega)
    have hq1 : 1 ≤ a / I := by omega
    have ha1 : a - I = I * (a / I - 1) + (a % I) := by
      have : I * (a / I - 1) + I = I * (a / I) := by
        have hx : I * (a / I) = I * (a / I - 1) + I * 1 := by
          rw [← Nat.mul_add]
          congr 1
          omega
        omega
      omega
    have hd := decompose_mod_div (q := a / I - 1) (r := a % I) hI (by omega)
    rw [ha1, hd.1, hd.2]
    refine ⟨by omega, by omega, by omega, by omega⟩
  · intro b hb
    rw [Finset.mem_filter, Finset.mem_range] at hb ⊢
    obtain ⟨hbN, hpar, hi, hj⟩ := hb
    unfold parOf iOf jOf at *
    have hI : 0 < I := by omega
    have hmod := Nat.div_add_mod b I
    have hltI := Nat.mod_lt b hI
    have hb1 : b + I = I * (b / I + 1) + (b % I) := by
      have : I * (b / I + 1) = I * (b / I) + I := by ring
      omega
    have hd := decompose_mod_div (q := b / I + 1) (r := b % I) hI (by omega)
    have hmul := Nat.mul_le_mul_left I (show b / I + 2 ≤ J by omega)
    have hexp : I * (b / I + 2) = I * (b / I) + 2 * I := by ring
    have hexp1 : I * (b / I + 1) = I * (b / I) + I := by ring
    have hdiv0 : 0 ≤ b / I := Nat.zero_le _
    rw [hb1, hd.1, hd.2]
    refine ⟨by omega, by omega, by omega, by omega⟩
  · intro a ha
    rw [Finset.mem_filter, Finset.mem_range] at ha
    unfold parOf iOf jOf at ha
    have hI : 0 < I := by omega
    have hmod := Nat.div_add_mod a I
    have hq1 : 1 ≤ a / I := by omega
    have hIle : I * 1 ≤ I * (a / I) := Nat.mul_le_mul_left I hq1
    omega
  · intro b _
    omega

theorem card_flip_c22 (I J f : ℕ) (hf : f < 2) :
    ((Finset.range (I * J)).filter fun p =>
      parOf I p = f ∧ 1 < iOf I p ∧ jOf I p = J).card =
    ((Finset.range (I * J)).filter fun p =>
      parOf I p = (1 - f) ∧ iOf I p < I ∧ jOf I p = J).card := by
  classical
  apply Finset.card_nbij' (fun x => x - 1) (fun y => y + 1)
  · intro a ha
    rw [Finset.mem_filter, Finset.mem_range] at ha ⊢
    obtain ⟨haN, hpar, hi, hj⟩ := ha
    unfold parOf iOf jOf at *
    have hI : 0 < I := (pos_of_lt_mul haN).1
    have hmod := Nat.div_add_mod a I
    have hltI := Nat.mod_lt a hI
    have ha1 : a - 1 = I * (a / I) + (a % I - 1) := by omega
    have hd := decompose_mod_div (q := a / I) (r := a % I - 1) hI (by omega)
    rw [ha1, hd.1, hd.2]
    refine ⟨by omega, by omega, by omega, by omega⟩
  · intro b hb
    rw [Finset.mem_filter, Finset.mem_range] at hb ⊢
    obtain ⟨hbN, hpar, hi, hj⟩ := hb
    unfold parOf iOf jOf at *
    have hI : 0 < I := (pos_of_lt_mul hbN).1
    have hmod := Nat.div_add_mod b I
    have hltI := Nat.mod_lt b hI
    have hb1 : b + 1 = I * (b / I) + (b % I + 1) := by omega
    have hd := decompose_mod_div (q := b / I) (r := b % I + 1) hI (by omega)
    have hmul := Nat.mul_le_mul_left I (show b / I + 1 ≤ J by omega)
    have hexp : I * (b / I + 1) = I * (b / I) + I := by ring
    rw [hb1, hd.1, hd.2]
    refine ⟨by omega, by omega, by omega, by omega⟩
  · intro a ha
    rw [Finset.mem_filter, Finset.mem_range] at ha
    unfold parOf iOf jOf at ha
    have hI : 0 < I := (pos_of_lt_mul ha.1).1
    have hmod := Nat.div_add_mod a I
    omega
  · intro b _
    omega

theorem card_base_interior (I J : ℕ) :
    ((Finset.range (I * J)).filter fun p =>
      iOf I p < I ∧ jOf I p < J).card = (I - 1) * (J - 1) := by
  classical
  have h : ((Finset.range (I * J)).filter fun p =>
      iOf I p < I ∧ jOf I p < J).card =
      ((Finset.range (I - 1)) ×ˢ (Finset.range (J - 1))).card := by
    apply Finset.card_nbij' (fun p => (p % I, p / I))
      (fun rq => I * rq.2 + rq.1)
    · intro a ha
      rw [Finset.mem_filter, Finset.mem_range] at ha
      obtain ⟨haN, hi, hj⟩ := ha
      simp only [iOf] at hi
      simp only [jOf] at hj
      simp only [Finset.mem_product, Finset.mem_range]
      omega
    · intro rq hrq
      rw [Finset.mem_product, Finset.mem_range, Finset.mem_range] at hrq
      obtain ⟨hr, hq⟩ := hrq
      have hI0 : 0 < I := by omega
      have hd := decompose_mod_div (q := rq.2) (r := rq.1) hI0 (by omega)
      have hmul := Nat.mul_le_mul_left I (show rq.2 + 1 ≤ J by omega)
      have hexp1 : I * (rq.2 + 1) = I * rq.2 + I := by ring
      simp only [Finset.mem_filter, Finset.mem_range, iOf, jOf]
      simp only [hd.1, hd.2]
      omega
    · intro a _
      show I * (a / I) + a % I = a
      exact Nat.div_add_mod a I
    · intro rq hrq
      rw [Finset.mem_product, Finset.mem_range, Finset.mem_range] at hrq
      obtain ⟨hr, hq⟩ := hrq
      have hd := decompose_mod_div (I := I) (q := rq.2) (r := rq.1)
        (by omega) (by omega)
      show ((I * rq.2 + rq.1) % I, (I * rq.2 + rq.1) / I) = rq
      rw [hd.1, hd.2]
  rw [h, Finset.card_product, Finset.card_range, Finset.card_range]

theorem card_base_right (I J : ℕ) (hI : 1 ≤ I) :
    ((Finset.range (I * J)).filter fun p =>
      iOf I p = I ∧ jOf I p < J).card = J - 1 := by
  classical
  have h : ((Finset.range (I * J)).filter fun p =>
      iOf I p = I ∧ jOf I p < J).card = (Finset.range (J - 1)).card := by
    apply Finset.card_nbij' (fun p => p / I) (fun q => I * q + (I - 1))
    · intro a ha
      rw [Finset.mem_filter, Finset.mem_range] at ha
      obtain ⟨haN, hi, hj⟩ := ha
      simp only [iOf] at hi
      simp only [jOf] at hj
      simp only [Finset.mem_range]
      omega
    · intro q hq
      rw [Finset.mem_range] at hq
      have hd := decompose_mod_div (I := I) (q := q) (r := I - 1)
        (by omega) (by omega)
      have hmul := Nat.mul_le_mul_left I (show q + 1 ≤ J by omega)
      have hexp1 : I * (q + 1) = I * q + I := by ring
      simp only [Finset.mem_filter, Finset.mem_range, iOf, jOf]
      simp only [hd.1, hd.2]
      omega
    · intro a ha
      rw [Finset.mem_filter, Finset.mem_range] at ha
      obtain ⟨haN, hi, hj⟩ := ha
      simp only [iOf] at hi
      simp only [jOf] at hj
      show I * (a / I) + (I - 1) = a
      have hmod := Nat.div_add_mod a I
      omega
    · intro q hq
      rw [Finset.mem_range] at hq
      have hd := decompose_mod_div (I := I) (q := q) (r := I - 1)
        (by omega) (by omega)
      show (I * q + (I - 1)) / I = q
      exact hd.2
  rw [h, Finset.card_range]

theorem card_base_top (I J : ℕ) (hJ : 1 ≤ J) :
    ((Finset.range (I * J)).filter fun p =>
      iOf I p < I ∧ jOf I p = J).card = I - 1 := by
  classical
  have h : ((Finset.range (I * J)).filter fun p =>
      iOf I p < I ∧ jOf I p = J).card = (Finset.range (I - 1)).card := by
    apply Finset.card_nbij' (fun p => p % I) (fun r => I * (J - 1) + r)
    · intro a ha
      rw [Finset.mem_filter, Finset.mem_range] at ha
      obtain ⟨haN, hi, hj⟩ := ha
      simp only [iOf] at hi
      simp only [jOf] at hj
      simp only [Finset.mem_range]
      omega
    · intro r hr
      rw [Finset.mem_range] at hr
      have hI0 : 0 < I := by omega
      have hd := decompose_mod_div (q := J - 1) (r := r) hI0 (by omega)
      have hexp1 : I * (J - 1 + 1) = I * (J - 1) + I := by ring
      have hmul : I * (J - 1 + 1) ≤ I * J := Nat.mul_le_mul_left I (by omega)
      simp only [Finset.mem_filter, Finset.mem_range, iOf, jOf]
      simp only [hd.1, hd.2]
      omega
    · intro a ha
      rw [Finset.mem_filter, Finset.mem_range] at ha
      obtain ⟨haN, hi, hj⟩ := ha
      simp only [iOf] at hi
      simp only [jOf] at hj
      show I * (J - 1) + a % I = a
      have hmod := Nat.div_add_mod a I
      have hdiv : a / I = J - 1 := by omega
      rw [← hdiv]
      exact hmod
    · intro r hr
      rw [Finset.mem_range] at hr
      have hd := decompose_mod_div (I := I) (q := J - 1) (r := r)
        (by omega) (by omega)
      show (I * (J - 1) + r) % I = r
      exact hd.1
  rw [h, Finset.card_range]


theorem class_pair_counts (I J f : ℕ) (hI : 1 ≤ I) (hJ : 1 ≤ J)
    (hf : f < 2) :
    (c1 I J f).length + (c2 I J f).length = (I - 1) * (J - 1) ∧
    (c11 I J f).length + (c21 I J f).length = J - 1 ∧
    (c12 I J f).length + (c22 I J f).length = I - 1 := by
  classical
  have hpar : ∀ p, parOf I p < 2 := fun p => Nat.mod_lt _ (by omega)
  refine ⟨?_, ?_, ?_⟩
  · rw [c1_card, c2_card, card_flip_c2 I J f hf, ← card_base_interior I J]
    exact parity_partition (I * J)
      (fun p => iOf I p < I ∧ jOf I p < J) (parOf I) hpar f hf
  · rw [c11_card, c21_card, card_flip_c21 I J f hf, ← card_base_right I J hI]
    exact parity_partition (I * J)
      (fun p => iOf I p = I ∧ jOf I p < J) (parOf I) hpar f hf
  · rw [c12_card, c22_card, card_flip_c22 I J f hf, ← card_base_top I J hJ]
    exact parity_partition (I * J)
      (fun p => iOf I p < I ∧ jOf I p = J) (parOf I) hpar f hf

theorem edg0_length (I J f : ℕ) (hI : 1 ≤ I) (hJ : 1 ≤ J) (hf : f < 2) :
    (edg0 I J f).length = n2 I J := by
  obtain ⟨h1, h2, h3⟩ := class_pair_counts I J f hI hJ hf
  unfold edg0 n2
  simp only [List.length_append, List.length_map]
  omega

theorem sliceSeg_length (I J k : ℕ) (hI : 1 ≤ I) (hJ : 1 ≤ J) :
    (sliceSeg I J k).length = n1 I J := by
  unfold sliceSeg
  rw [List.length_map]
  by_cases hpar : k % 2 = 1
  · rw [if_pos hpar]
    obtain ⟨h1, h2, h3⟩ := class_pair_counts I J 0 hI hJ (by omega)
    unfold edg0 edg1 edg2 n1
    simp only [List.length_append, List.length_map, List.length_cons,
      List.length_nil]
    omega
  · rw [if_neg hpar]
    obtain ⟨h1, h2, h3⟩ := class_pair_counts I J 1 hI hJ (by omega)
    unfold edg0 edg1 edg2 n1
    simp only [List.length_append, List.length_map, List.length_cons,
      List.length_nil]
    omega

/-- The assembled template has the exact row count of the preallocated
array `np.zeros(((K-1)*n1 + n2, 2))`, so the functional concatenation
fills it exactly. -/
theorem latTemplate_length (I J K : ℕ) (hI : 1 ≤ I) (hJ : 1 ≤ J) :
    (latTemplate I J K).length = (K - 1) * n1 I J + n2 I J := by
  unfold latTemplate
  rw [List.length_append, List.length_map, List.length_take,
    List.length_flatten, List.map_map]
  have hcongr : ∀ k0 ∈ List.range (K - 1),
      (List.length ∘ fun k0 => sliceSeg I J (k0 + 1)) k0 = n1 I J :=
    fun k0 _ => sliceSeg_length I J (k0 + 1) hI hJ
  rw [List.map_congr_left hcongr, List.map_const', List.length_range,
    List.sum_const_nat, edg0_length I J ((K + 1) % 2) hI hJ (by omega)]
  omega

/-! ### Dispatch of mesh_edges over its input kinds (claim C9) -/

/-- Modelled from the spec: the SLM class lives in brainstat.stats.SLM, which
is not under src/, so an SLM object is modelled as optional triangle data,
optional lattice data and an optional associated surface. The other two
constructors mirror the inputs mesh_edges dispatches on directly: a dictionary
with optional tri and lat keys, and a BSPolyData surface whose edges BrainSpace
returns ready-made. -/
inductive Surf where
  | dict (tri : Option (List (ℤ × ℤ × ℤ)))
      (lat : Option (ℕ × ℕ × ℕ × (ℕ → ℕ → ℕ → Bool)))
  | poly (edges : List (ℤ × ℤ))
  | slm (tri : Option (List (ℤ × ℤ × ℤ)))
      (lat : Option (ℕ × ℕ × ℕ × (ℕ → ℕ → ℕ → Bool)))
      (surf : Option Surf)

/-- Failure modes observable from the mesh_edges dispatch: unsupported models
the sys.exit call taken for a dictionary with neither key, and typeError
models the TypeError that the membership test tri in surf raises when surf is
not a container. -/
inductive MeshErr where
  | unsupported
  | typeError
deriving DecidableEq

/-- Final mask application of mesh_edges: when a mask is given, the edge list
is filtered and renumbered by the mask before being returned. -/
def applyMaskOpt (edges : List (ℤ × ℤ)) : Option (List Bool) → List (ℤ × ℤ)
  | some m => maskEdges edges m
  | none => edges

/-- Dispatch of mesh_edges, lines 28 to 190 of brainstat/mesh/utils.py. An SLM
with triangle data is rewrapped as a tri dictionary and an SLM with lattice
data as a lat dictionary; an SLM carrying only an associated surface returns
the recursive call on that surface immediately, so the mask is dropped. An SLM
with none of the three constructs ValueError without raising it, falls through
the BSPolyData test, and crashes in the expression tri in surf with a
TypeError because an SLM is not a container. A plain dictionary with neither
key reaches the sys.exit branch. -/
def mesh_edges_py : Surf → Option (List Bool) → Except MeshErr (List (ℤ × ℤ))
  | Surf.poly edges, mask => Except.ok (applyMaskOpt edges mask)
  | Surf.dict (some tri) _, mask =>
      Except.ok (applyMaskOpt (meshEdgesTri tri) mask)
  | Surf.dict none (some l), mask =>
      Except.ok (applyMaskOpt (meshEdgesLat l.1 l.2.1 l.2.2.1 l.2.2.2) mask)
  | Surf.dict none none, _ => Except.error MeshErr.unsupported
  | Surf.slm (some tri) _ _, mask =>
      Except.ok (applyMaskOpt (meshEdgesTri tri) mask)
  | Surf.slm none (some l) _, mask =>
      Except.ok (applyMaskOpt (meshEdgesLat l.1 l.2.1 l.2.2.1 l.2.2.2) mask)
  | Surf.slm none none (some s), _ => mesh_edges_py s none
  | Surf.slm none none none, _ => Except.error MeshErr.typeError

/-- C9: the claim fails on SLM inputs. A mesh given as a plain dictionary with
neither a triangle nor a lattice representation does reach the deliberate
failure branch, modelled as the unsupported error; but an SLM object whose
tri, lat and surf attributes are all None builds its ValueError without
raising it and instead crashes with a TypeError from the membership test,
which is a different error kind than the unsupported-format failure. -/
theorem meshEdges_dispatch_missing_repr :
    mesh_edges_py (Surf.dict none none) none = Except.error MeshErr.unsupported ∧
    mesh_edges_py (Surf.slm none none none) none =
      Except.error MeshErr.typeError ∧
    MeshErr.typeError ≠ MeshErr.unsupported :=
  ⟨rfl, rfl, by decide⟩

/-! ### The linear model fitter py_SurfStatLinMod (claims C1 to C5) -/

/-- The four Penrose equations: P is the Moore-Penrose pseudo-inverse of X.
np.linalg.pinv computes exactly this matrix, which is unique, so the fitter
is modelled as a function of any P satisfying the equations. -/
abbrev IsPinv {n p : ℕ} (X : Matrix (Fin n) (Fin p) ℚ)
    (P : Matrix (Fin p) (Fin n) ℚ) : Prop :=
  X * P * X = X ∧ P * X * P = P ∧
    Matrix.transpose (X * P) = X * P ∧ Matrix.transpose (P * X) = P * X

/-- Line 88 of SurfStatLinMod.py: coef = np.dot(pinvX, Y). -/
def coefFit {n p v : ℕ} (P : Matrix (Fin p) (Fin n) ℚ)
    (Y : Matrix (Fin n) (Fin v) ℚ) : Matrix (Fin p) (Fin v) ℚ := P * Y

/-- Line 90: Y = Y - np.dot(slm[X], coef). The subtraction allocates a fresh
array and rebinds the local name Y to it. -/
def residFit {n p v : ℕ} (X : Matrix (Fin n) (Fin p) ℚ)
    (P : Matrix (Fin p) (Fin n) ℚ) (Y : Matrix (Fin n) (Fin v) ℚ) :
    Matrix (Fin n) (Fin v) ℚ := Y - X * coefFit P Y

/-- Line 92: SSE = np.sum(np.power(Y, 2), axis=0), the column-wise, per
vertex, sum of squared residuals. -/
def sseFit {n p v : ℕ} (X : Matrix (Fin n) (Fin p) ℚ)
    (P : Matrix (Fin p) (Fin n) ℚ) (Y : Matrix (Fin n) (Fin v) ℚ) :
    Fin v → ℚ := fun t => ∑ i, residFit X P Y i t ^ 2

/-- Line 54: slm[df] = n - np.linalg.matrix_rank(slm[X]). For an exact
pseudo-inverse the projection X * P is idempotent and symmetric with the
same rank as X, so the numerical rank is modelled as its trace. -/
def dfFit {n p : ℕ} (X : Matrix (Fin n) (Fin p) ℚ)
    (P : Matrix (Fin p) (Fin n) ℚ) : ℚ := (n : ℚ) - Matrix.trace (X * P)

/-- The callers Y buffer after the univariate path: line 90 rebinds the
local name rather than writing into the argument array, so the buffer the
caller passed still holds its original contents. -/
def callerYAfterUni {n v : ℕ} (Y : Matrix (Fin n) (Fin v) ℚ) :
    Matrix (Fin n) (Fin v) ℚ := Y

/-- Lines 104 to 107: the multivariate loop over components. Iteration j
computes coef[:,:,j] = np.dot(pinvX, Y[:,:,j]) and then assigns
Y[:,:,j] - np.dot(X, coef[:,:,j]) into the slice Y[:,:,j] of the argument
array in place. The state after m iterations is the pair of the coef array,
preallocated with zeros on line 104, and the partly overwritten Y buffer. -/
def multLoop {n p v : ℕ} (X : Matrix (Fin n) (Fin p) ℚ)
    (P : Matrix (Fin p) (Fin n) ℚ) (Y : ℕ → Matrix (Fin n) (Fin v) ℚ) :
    ℕ → (ℕ → Matrix (Fin p) (Fin v) ℚ) × (ℕ → Matrix (Fin n) (Fin v) ℚ)
  | 0 => (fun _ => 0, Y)
  | j + 1 =>
      let s := multLoop X P Y j
      let c := P * s.2 j
      (Function.update s.1 j c, Function.update s.2 j (s.2 j - X * c))

/-- Lines 112 to 113: the packed pair order (j1, j2) for j2 at most j1,
row-major over the upper triangle: (0,0), (1,0), (1,1), (2,0), and so on. -/
def packedIdx (k : ℕ) : List (ℕ × ℕ) :=
  (List.range k).flatMap fun j1 => (List.range (j1 + 1)).map fun j2 => (j1, j2)

/-- Line 114 writes a vector with one entry per observation into a
destination row with one entry per vertex; numpy broadcasting accepts the
assignment only when the lengths agree or the source has length one, and
raises a broadcast error otherwise, modelled as none. -/
def npAssignRow {n : ℕ} (v : ℕ) (vals : Fin n → ℚ) : Option (Fin v → ℚ) :=
  if h : n = v then some fun t => vals (Fin.cast h.symm t)
  else if h1 : n = 1 then some fun t => vals ⟨0, by omega⟩
  else none

/-- Lines 109 to 115: the packed SSE rows as the code computes them. After
the component loop the Y buffer holds the residuals, and line 114 sums the
product Y[:,:,j1] * Y[:,:,j2] along axis=1, over vertices, producing a per
observation vector that is then broadcast into the per-vertex row. -/
def sseMultCode {n p v : ℕ} (X : Matrix (Fin n) (Fin p) ℚ)
    (P : Matrix (Fin p) (Fin n) ℚ) (Y : ℕ → Matrix (Fin n) (Fin v) ℚ)
    (k : ℕ) : Option (List (Fin v → ℚ)) :=
  (packedIdx k).mapM fun jj =>
    npAssignRow v fun i =>
      ∑ t, (multLoop X P Y k).2 jj.1 i t * (multLoop X P Y k).2 jj.2 i t

/-- The packed SSE rows as the specification words them: the row of pair
(j1, j2) holds, for every vertex, the inner product across observations of
the residuals of components j1 and j2. -/
def sseMultSpec {n p v : ℕ} (X : Matrix (Fin n) (Fin p) ℚ)
    (P : Matrix (Fin p) (Fin n) ℚ) (Y : ℕ → Matrix (Fin n) (Fin v) ℚ)
    (k : ℕ) : List (Fin v → ℚ) :=
  (packedIdx k).map fun jj => fun t =>
    ∑ i, (multLoop X P Y k).2 jj.1 i t * (multLoop X P Y k).2 jj.2 i t

/-- np.spacing(1), the double-precision machine epsilon. -/
def epsQ : ℚ := 1 / 2 ^ 52

/-- Line 47 for a 2-D design matrix: pinvX * np.ones(n) is an elementwise
product that broadcasts the row of ones across the rows of pinvX, leaving
pinvX unchanged, instead of applying pinvX to the ones vector. -/
def pinvTimesOnes {n p : ℕ} (P : Matrix (Fin p) (Fin n) ℚ) :
    Matrix (Fin p) (Fin n) ℚ := Matrix.of fun a b => P a b * 1

/-- Line 47: r = np.ones((n,1)) - np.dot(slm[X], pinvX * np.ones(n)); the
(n,1) column of ones minus the (n,n) product broadcasts to an (n,n) array. -/
def rWarn {n p : ℕ} (X : Matrix (Fin n) (Fin p) ℚ)
    (P : Matrix (Fin p) (Fin n) ℚ) : Matrix (Fin n) (Fin n) ℚ :=
  Matrix.of fun i j => 1 - (X * pinvTimesOnes P) i j

/-- Line 50: the missing-intercept warning fires when np.square(r).mean(),
the mean over all n * n entries of r, exceeds machine epsilon. -/
def warnCode {n p : ℕ} (X : Matrix (Fin n) (Fin p) ℚ)
    (P : Matrix (Fin p) (Fin n) ℚ) : Bool :=
  decide ((∑ i : Fin n, ∑ j : Fin n, rWarn X P i j ^ 2) / ((n : ℚ) * n) > epsQ)

/-- The diagnostic as the specification words it: the mean squared entry of
the n-vector (I - X * pinv X) * 1 exceeds machine epsilon. -/
def warnSpec {n p : ℕ} (X : Matrix (Fin n) (Fin p) ℚ)
    (P : Matrix (Fin p) (Fin n) ℚ) : Bool :=
  decide ((∑ i : Fin n, (1 - ∑ j : Fin n, (X * P) i j) ^ 2) / (n : ℚ) > epsQ)

/-- The intercept-only design of three observations. -/
def Xones3 : Matrix (Fin 3) (Fin 1) ℚ := !![1; 1; 1]

/-- The pseudo-inverse of Xones3. -/
def Pones3 : Matrix (Fin 1) (Fin 3) ℚ := !![1/3, 1/3, 1/3]

/-- The response of the concrete scenario of claim C2. -/
def Ycol3 : Matrix (Fin 3) (Fin 1) ℚ := !![2; 4; 6]

/-- The intercept-only design of two observations. -/
def Xones2 : Matrix (Fin 2) (Fin 1) ℚ := !![1; 1]

/-- The pseudo-inverse of Xones2. -/
def Pones2 : Matrix (Fin 1) (Fin 2) ℚ := !![1/2, 1/2]

/-- A two-component response with two observations and two vertices. -/
def Ymult2 : ℕ → Matrix (Fin 2) (Fin 2) ℚ := fun j =>
  if j = 0 then !![1, 2; 3, 4] else !![1, 0; 0, 1]

/-- A two-component response with three observations and two vertices, a
shape on which the packed SSE row assignment cannot broadcast. -/
def Ymult3 : ℕ → Matrix (Fin 3) (Fin 2) ℚ := fun _ => !![1, 0; 0, 1; 1, 1]

/-- The fully zero design of two observations. -/
def Xzero2 : Matrix (Fin 2) (Fin 1) ℚ := 0

/-- The pseudo-inverse of the zero matrix. -/
def Pzero2 : Matrix (Fin 1) (Fin 2) ℚ := 0

/-- A response for the zero-design scenario. -/
def Yzero2 : Matrix (Fin 2) (Fin 1) ℚ := !![1; 2]

/-- The Y buffer slice j after the whole multivariate loop holds the
residuals of component j; slices beyond the component count keep their
original contents. -/
theorem multLoop_snd {n p v : ℕ} (X : Matrix (Fin n) (Fin p) ℚ)
    (P : Matrix (Fin p) (Fin n) ℚ) (Y : ℕ → Matrix (Fin n) (Fin v) ℚ)
    (m : ℕ) : ∀ j, (multLoop X P Y m).2 j =
      if j < m then Y j - X * (P * Y j) else Y j := by
  induction m with
  | zero => intro j; simp [multLoop]
  | succ m ih =>
      intro j
      simp only [multLoop]
      by_cases hj : j = m
      · subst hj
        rw [Function.update_same, ih j]
        simp
      · rw [Function.update_noteq hj, ih j]
        by_cases h2 : j < m
        · rw [if_pos h2, if_pos (by omega)]
        · rw [if_neg h2, if_neg (by omega)]

/-- C2: the univariate fixed-effects path follows the stated formulas, and
for the design of three ones with response (2, 4, 6) any matrix satisfying
the Penrose equations for the design, in particular the one np.linalg.pinv
returns, yields coef = 4, SSE = 8 and df = 2. -/
theorem univariate_formulas_and_concrete_fit
    (P : Matrix (Fin 1) (Fin 3) ℚ) (hP : IsPinv Xones3 P) :
    coefFit P Ycol3 = !![4] ∧
    sseFit Xones3 P Ycol3 = (fun t => 8) ∧
    dfFit Xones3 P = 2 ∧
    ∀ (n q v : ℕ) (X : Matrix (Fin n) (Fin q) ℚ)
      (Q : Matrix (Fin q) (Fin n) ℚ) (Y : Matrix (Fin n) (Fin v) ℚ),
      coefFit Q Y = Q * Y ∧ residFit X Q Y = Y - X * coefFit Q Y ∧
      ∀ t, sseFit X Q Y t = ∑ i, residFit X Q Y i t ^ 2 := by
  have hPeq : P = Pones3 := by
    obtain ⟨h1, h2, h3, h4⟩ := hP
    have e01 : P 0 1 = P 0 0 := by
      have h := congrFun (congrFun h3 1) 0
      simp [Xones3, Matrix.mul_apply, Matrix.transpose_apply, Fin.sum_univ_one,
        Matrix.vecMul, Matrix.dotProduct, Matrix.vecHead, Matrix.vecTail] at h
      exact h
    have e02 : P 0 2 = P 0 0 := by
      have h := congrFun (congrFun h3 2) 0
      simp [Xones3, Matrix.mul_apply, Matrix.transpose_apply, Fin.sum_univ_one,
        Matrix.vecMul, Matrix.dotProduct, Matrix.vecHead, Matrix.vecTail] at h
      exact h
    have esum : P 0 0 + P 0 1 + P 0 2 = 1 := by
      have h := congrFun (congrFun h1 0) 0
      simp [Xones3, Matrix.mul_apply, Fin.sum_univ_three, Fin.sum_univ_one,
        Matrix.vecMul, Matrix.dotProduct, Matrix.vecHead, Matrix.vecTail] at h
      linarith
    ext i j
    fin_cases i
    fin_cases j <;> simp [Pones3] <;> linarith
  subst hPeq
  exact ⟨by decide, by decide, by decide,
    fun n q v X Q Y => ⟨rfl, rfl, fun t => rfl⟩⟩

/-- Witness for C2: the concrete pseudo-inverse of the all-ones design
satisfies the Penrose equations and gives the stated coefficient. -/
theorem univariate_formulas_and_concrete_fit_witness :
    IsPinv Xones3 Pones3 ∧ coefFit Pones3 Ycol3 = !![4] :=
  ⟨by decide, (univariate_formulas_and_concrete_fit Pones3 (by decide)).1⟩

/-- C1: the packed SSE of the multivariate path is not the per-vertex inner
product across observations. For the two-observation, two-vertex,
two-component input below the code sums the residual products along axis 1,
over vertices, giving a per-observation vector that differs from the claimed
rows; and for three observations and two vertices the row assignment is a
numpy broadcast error, modelled as none. -/
theorem multivariate_packed_sse_bug :
    IsPinv Xones2 Pones2 ∧
    sseMultCode Xones2 Pones2 Ymult2 2 ≠
      some (sseMultSpec Xones2 Pones2 Ymult2 2) ∧
    IsPinv Xones3 Pones3 ∧
    sseMultCode Xones3 Pones3 Ymult3 2 = none := by decide

/-- Amended C3: the univariate path leaves the callers Y buffer unchanged,
but the multivariate loop overwrites every component slice of the callers Y
buffer with the residuals of that component in place. -/
theorem linmod_input_buffers_corrected :
    (∀ (n p v k : ℕ) (X : Matrix (Fin n) (Fin p) ℚ)
      (P : Matrix (Fin p) (Fin n) ℚ) (Y : ℕ → Matrix (Fin n) (Fin v) ℚ)
      (j : ℕ), (multLoop X P Y k).2 j =
        if j < k then Y j - X * (P * Y j) else Y j) ∧
    (∀ (n v : ℕ) (Y : Matrix (Fin n) (Fin v) ℚ), callerYAfterUni Y = Y) :=
  ⟨fun n p v k X P Y j => multLoop_snd X P Y k j, fun n v Y => rfl⟩

/-- Counterexample to C3 as claimed: after the multivariate fit on the
concrete two-component input, slice 0 of the callers Y buffer no longer
holds the input values. -/
theorem linmod_multivariate_mutates_input :
    (multLoop Xones2 Pones2 Ymult2 2).2 0 ≠ Ymult2 0 := by decide

/-- C4: line 47 multiplies pinvX elementwise by the ones vector instead of
applying the projection to it, so r is the n by n array 1 - X * pinv X and
the test is over the wrong quantity: for the intercept-only design of two
ones the code emits the warning although the claimed predicate on
(I - X * pinv X) * 1 is false there. -/
theorem intercept_warning_bug :
    IsPinv Xones2 Pones2 ∧ warnCode Xones2 Pones2 = true ∧
    warnSpec Xones2 Pones2 = false := by decide

/-- Amended C5: a fully zero design matrix is not rejected. Its unique
pseudo-inverse is the zero matrix, so the fit runs through and returns zero
coefficients, the unchanged responses as residuals, SSE equal to the column
sums of squared responses, and the full n degrees of freedom. -/
theorem zero_design_fit_succeeds (n v : ℕ)
    (P : Matrix (Fin 1) (Fin n) ℚ) (Y : Matrix (Fin n) (Fin v) ℚ)
    (hP : IsPinv (0 : Matrix (Fin n) (Fin 1) ℚ) P) :
    coefFit P Y = 0 ∧ residFit 0 P Y = Y ∧
    (∀ t, sseFit (0 : Matrix (Fin n) (Fin 1) ℚ) P Y t = ∑ i, Y i t ^ 2) ∧
    dfFit (0 : Matrix (Fin n) (Fin 1) ℚ) P = n := by
  have hP0 : P = 0 := by
    have h2 := hP.2.1
    simpa using h2.symm
  subst hP0
  refine ⟨by simp [coefFit], by simp [residFit, coefFit], fun t => ?_,
    by simp [dfFit]⟩
  simp [sseFit, residFit, coefFit]

/-- Witness for the amended C5 at a one-observation instance. -/
theorem zero_design_fit_succeeds_witness :
    IsPinv (0 : Matrix (Fin 1) (Fin 1) ℚ) 0 ∧
    coefFit (0 : Matrix (Fin 1) (Fin 1) ℚ) (!![3] : Matrix (Fin 1) (Fin 1) ℚ) = 0 :=
  ⟨by decide, (zero_design_fit_succeeds 1 1 0 !![3] (by decide)).1⟩

/-- Counterexample to C5 as claimed: the concrete zero design of two
observations does not fail; the fit succeeds with zero coefficients, SSE 5
and df 2. -/
theorem zero_design_no_error :
    IsPinv Xzero2 Pzero2 ∧ coefFit Pzero2 Yzero2 = 0 ∧
    sseFit Xzero2 Pzero2 Yzero2 = (fun t => 5) ∧ dfFit Xzero2 Pzero2 = 2 := by
  decide

end BrainStat
